import Mathlib

/-!
Verification of the NewsHarvester news-aggregation pipeline.

This file gives a shallow embedding of the pipeline code (news service,
deduplication, article storage, trending aggregation, breaking-news monitor,
embedding similarity) and proves the specified properties about it.

Conventions of the embedding:
* JavaScript timestamps (`Date` values / `getTime()`) are modelled as `Int`
  milliseconds since the epoch; `new Date(a) > new Date(b)` is `a > b`.
* JavaScript `Map<string, V>` (insertion ordered, `set` replaces in place)
  is modelled as an insertion-ordered association list `List (String × V)`
  with `mapFind?` / `mapSet`.
* Floating point embedding entries are modelled as exact rationals `ℚ`;
  the real-valued cosine similarity lives in `ℝ`.
* Thrown exceptions are modelled with `Except String`; external collaborators
  (HTTP sources, the embedding oracle, persistence failures) are modelled as
  explicit environment records quantified over in the theorems.
-/

/-! ## Character-level helpers for title normalization

The normalization in `deduplicateArticles` (newsService / scheduler) is
`title.toLowerCase().replace(/[^\w\s가-힣]/g, '').trim().slice(0, 50)`.
`Char.toLower` agrees with JavaScript `toLowerCase` on every character kept by
the subsequent filter (ASCII word characters, whitespace and Hangul syllables,
none of which has a non-ASCII case mapping). -/

/-- Regex class `\w`: ASCII word characters. -/
def isWordChar (c : Char) : Bool :=
  ('a' ≤ c && c ≤ 'z') || ('A' ≤ c && c ≤ 'Z') || ('0' ≤ c && c ≤ '9') || c = '_'

/-- Regex class `\s` (JavaScript): whitespace and line terminators. -/
def isJsSpace (c : Char) : Bool :=
  c = ' ' || c = '\t' || c = '\n' || c = '\r' ||
  c.toNat = 11 || c.toNat = 12 || c.toNat = 0xa0 || c.toNat = 0x1680 ||
  (0x2000 ≤ c.toNat && c.toNat ≤ 0x200a) || c.toNat = 0x2028 ||
  c.toNat = 0x2029 || c.toNat = 0x202f || c.toNat = 0x205f ||
  c.toNat = 0x3000 || c.toNat = 0xfeff

/-- Regex range `가-힣`: Hangul syllables (the native alphabetic range). -/
def isHangul (c : Char) : Bool := '가' ≤ c && c ≤ '힣'

/-- Characters kept by `replace(/[^\w\s가-힣]/g, '')`. -/
def keepChar (c : Char) : Bool := isWordChar c || isJsSpace c || isHangul c

/-- JavaScript `String.prototype.trim`: drop whitespace from both ends. -/
def trimChars (l : List Char) : List Char :=
  ((l.dropWhile isJsSpace).reverse.dropWhile isJsSpace).reverse

/-- The lexical bucket key of `deduplicateArticles`:
`title.toLowerCase().replace(/[^\w\s가-힣]/g, '').trim().slice(0, 50)`.
After the filter every remaining character is a single UTF-16 code unit, so
`slice(0, 50)` is `take 50` on characters. -/
def normalizeTitle (t : String) : String :=
  String.mk ((trimChars ((t.data.map Char.toLower).filter keepChar)).take 50)

/-! ## Data model (shared/schema.ts) -/

/-- `InsertArticle` (shared/schema.ts): the canonical article shape produced by
the source adapters, before persistence. `publishedAt` is epoch milliseconds.
The unused `content` column is omitted. -/
structure InsertArticle where
  title : String
  description : Option String
  url : String
  imageUrl : Option String
  source : String
  publishedAt : Int
  category : Option String
deriving DecidableEq, Repr

/-- `Article` (shared/schema.ts): a persisted row, i.e. an `InsertArticle`
plus a durable identity. Ids are modelled as consecutive naturals (the code
uses random uuids; only distinctness matters). `createdAt` is omitted. -/
structure Article extends InsertArticle where
  id : Nat
deriving DecidableEq, Repr

/-! ## Insertion-ordered string map (JavaScript `Map`) -/

section AssocMap

variable {α : Type}

/-- `Map.get` / `Map.has`: first binding of `k`. -/
def mapFind? (k : String) : List (String × α) → Option α
  | [] => none
  | (k', v) :: m => if k' = k then some v else mapFind? k m

/-- `Map.set`: replace the binding of `k` in place, or append a new one. -/
def mapSet (k : String) (v : α) : List (String × α) → List (String × α)
  | [] => [(k, v)]
  | (k', v') :: m => if k' = k then (k, v) :: m else (k', v') :: mapSet k v m

theorem mapFind?_mapSet_self (k : String) (v : α) (m : List (String × α)) :
    mapFind? k (mapSet k v m) = some v := by
  induction m with
  | nil => simp [mapSet, mapFind?]
  | cons p m ih =>
    by_cases h : p.1 = k <;> simp [mapSet, mapFind?, h, ih]

theorem mapFind?_mapSet_ne (k k' : String) (v : α) (m : List (String × α))
    (h : k ≠ k') : mapFind? k' (mapSet k v m) = mapFind? k' m := by
  induction m with
  | nil => simp [mapSet, mapFind?, h]
  | cons p m ih =>
    by_cases hp : p.1 = k
    · simp [mapSet, mapFind?, hp, h]
    · simp only [mapSet, hp, if_false, mapFind?]
      by_cases hp' : p.1 = k' <;> simp [hp', ih]

theorem mem_mapSet (k : String) (v : α) (m : List (String × α))
    (p : String × α) (hp : p ∈ mapSet k v m) : p = (k, v) ∨ p ∈ m := by
  induction m with
  | nil => simpa [mapSet] using hp
  | cons q m ih =>
    by_cases hq : q.1 = k
    · rcases (by simpa [mapSet, hq] using hp) with h | h
      · exact Or.inl h
      · exact Or.inr (List.mem_cons_of_mem _ h)
    · rcases (by simpa [mapSet, hq] using hp) with h | h
      · exact Or.inr (by simp [h])
      · rcases ih h with h' | h'
        · exact Or.inl h'
        · exact Or.inr (List.mem_cons_of_mem _ h')

theorem keys_mapSet_mem (k : String) (v : α) (m : List (String × α))
    (h : mapFind? k m ≠ none) :
    (mapSet k v m).map Prod.fst = m.map Prod.fst := by
  induction m with
  | nil => simp [mapFind?] at h
  | cons p m ih =>
    by_cases hp : p.1 = k
    · simp [mapSet, hp]
    · simp only [mapFind?, hp, if_false] at h
      simp [mapSet, hp, ih h]

theorem mapSet_of_not_mem (k : String) (v : α) (m : List (String × α))
    (h : mapFind? k m = none) : mapSet k v m = m ++ [(k, v)] := by
  induction m with
  | nil => simp [mapSet]
  | cons p m ih =>
    by_cases hp : p.1 = k
    · simp [mapFind?, hp] at h
    · simp only [mapFind?, hp, if_false] at h
      simp [mapSet, hp, ih h]

theorem mapFind?_eq_none_iff (k : String) (m : List (String × α)) :
    mapFind? k m = none ↔ k ∉ m.map Prod.fst := by
  induction m with
  | nil => simp [mapFind?]
  | cons p m ih =>
    by_cases hp : p.1 = k
    · simp [mapFind?, hp]
    · simp only [mapFind?, hp, if_false, List.map_cons, List.mem_cons, ih]
      constructor
      · intro h hk
        rcases hk with hk | hk
        · exact hp hk.symm
        · exact h hk
      · intro h hk
        exact h (Or.inr hk)

theorem mapFind?_of_mem_nodup (m : List (String × α)) (p : String × α)
    (hnd : (m.map Prod.fst).Nodup) (hp : p ∈ m) :
    mapFind? p.1 m = some p.2 := by
  induction m with
  | nil => cases hp
  | cons q m ih =>
    simp only [List.map_cons, List.nodup_cons] at hnd
    rcases List.mem_cons.mp hp with h | h
    · simp [h, mapFind?]
    · have hq : q.1 ≠ p.1 := by
        intro he
        exact hnd.1 (he ▸ List.mem_map.mpr ⟨p, h, rfl⟩)
      simp [mapFind?, hq, ih hnd.2 h]

end AssocMap

/-! ## Phase-1 lexical deduplication

Embeds `deduplicateArticles` of server/scheduler.ts (lexical only) and,
identically, phase 1 of `deduplicateArticles` in the news service. -/

/-- One iteration of the phase-1 loop: bucket by normalized title, keep the
strictly more recent article on a collision. -/
def dedupStep (m : List (String × InsertArticle)) (article : InsertArticle) :
    List (String × InsertArticle) :=
  let normalizedTitle := normalizeTitle article.title
  match mapFind? normalizedTitle m with
  | none => mapSet normalizedTitle article m
  | some existing =>
      if article.publishedAt > existing.publishedAt then
        mapSet normalizedTitle article m
      else m

/-- Phase-1 (lexical) deduplication: fold the articles through the seen-map and
return the bucket representatives in key-insertion order
(`Array.from(map.values())`). -/
def deduplicateArticlesLexical (articles : List InsertArticle) : List InsertArticle :=
  (articles.foldl dedupStep []).map Prod.snd

/-- The articles of the input that fall into the bucket of key `k`. -/
def bucket (k : String) (l : List InsertArticle) : List InsertArticle :=
  l.filter (fun a => normalizeTitle a.title = k)

/-- The collision rule of phase 1: keep the strictly more recent article. -/
def pickNewer (existing article : InsertArticle) : InsertArticle :=
  if article.publishedAt > existing.publishedAt then article else existing

/-- The per-bucket accumulation induced by the phase-1 fold. -/
def bucketAcc : Option InsertArticle → List InsertArticle → Option InsertArticle
  | s, [] => s
  | none, a :: l => bucketAcc (some a) l
  | some e, a :: l => bucketAcc (some (pickNewer e a)) l

theorem dedupStep_eq (m : List (String × InsertArticle)) (a : InsertArticle) :
    dedupStep m a =
      match mapFind? (normalizeTitle a.title) m with
      | none => mapSet (normalizeTitle a.title) a m
      | some existing =>
          if a.publishedAt > existing.publishedAt then
            mapSet (normalizeTitle a.title) a m
          else m := rfl

/-- Every binding in the seen-map keys its article by its normalized title. -/
def KeysOK (m : List (String × InsertArticle)) : Prop :=
  ∀ p ∈ m, normalizeTitle p.2.title = p.1

theorem keysOK_dedupStep (m : List (String × InsertArticle)) (a : InsertArticle)
    (h : KeysOK m) : KeysOK (dedupStep m a) := by
  rw [dedupStep_eq]
  cases hf : mapFind? (normalizeTitle a.title) m with
  | none =>
    intro p hp
    rcases mem_mapSet _ _ _ _ hp with h' | h'
    · rw [h']
    · exact h p h'
  | some existing =>
    by_cases hgt : a.publishedAt > existing.publishedAt
    · simp only [hgt, if_true]
      intro p hp
      rcases mem_mapSet _ _ _ _ hp with h' | h'
      · rw [h']
      · exact h p h'
    · simpa [hgt] using h

theorem nodupKeys_dedupStep (m : List (String × InsertArticle)) (a : InsertArticle)
    (h : (m.map Prod.fst).Nodup) : ((dedupStep m a).map Prod.fst).Nodup := by
  rw [dedupStep_eq]
  cases hf : mapFind? (normalizeTitle a.title) m with
  | none =>
    rw [mapSet_of_not_mem _ _ _ hf, List.map_append]
    refine List.Nodup.append h (List.nodup_singleton _) ?_
    intro x hx hx'
    have hk : x = normalizeTitle a.title := by simpa using hx'
    exact ((mapFind?_eq_none_iff _ _).mp hf) (hk ▸ hx)
  | some existing =>
    by_cases hgt : a.publishedAt > existing.publishedAt
    · simp only [hgt, if_true]
      rw [keys_mapSet_mem _ _ _ (by rw [hf]; exact fun h => Option.noConfusion h)]
      exact h
    · simpa [hgt] using h

theorem keysOK_foldl (as : List InsertArticle) :
    ∀ m, KeysOK m → KeysOK (as.foldl dedupStep m) := by
  induction as with
  | nil => intro m h; exact h
  | cons a rest ih => intro m h; exact ih _ (keysOK_dedupStep m a h)

theorem nodupKeys_foldl (as : List InsertArticle) :
    ∀ m, (m.map Prod.fst).Nodup → (((as.foldl dedupStep m)).map Prod.fst).Nodup := by
  induction as with
  | nil => intro m h; exact h
  | cons a rest ih => intro m h; exact ih _ (nodupKeys_dedupStep m a h)

theorem mapFind?_foldl_dedupStep (as : List InsertArticle) :
    ∀ (m : List (String × InsertArticle)) (k : String),
    mapFind? k (as.foldl dedupStep m) = bucketAcc (mapFind? k m) (bucket k as) := by
  induction as with
  | nil =>
    intro m k
    rw [List.foldl_nil]
    cases mapFind? k m <;> rfl
  | cons a rest ih =>
    intro m k
    rw [List.foldl_cons, ih]
    by_cases hk : normalizeTitle a.title = k
    · have hb : bucket k (a :: rest) = a :: bucket k rest := by
        simp [bucket, hk]
      rw [hb, dedupStep_eq, hk]
      cases hf : mapFind? k m with
      | none =>
        show bucketAcc (mapFind? k (mapSet k a m)) (bucket k rest)
          = bucketAcc none (a :: bucket k rest)
        rw [mapFind?_mapSet_self]
        rfl
      | some existing =>
        by_cases hgt : a.publishedAt > existing.publishedAt
        · simp only [hgt, if_true]
          show bucketAcc (mapFind? k (mapSet k a m)) (bucket k rest)
            = bucketAcc (some existing) (a :: bucket k rest)
          rw [mapFind?_mapSet_self]
          show bucketAcc (some a) (bucket k rest)
            = bucketAcc (some (pickNewer existing a)) (bucket k rest)
          rw [pickNewer, if_pos hgt]
        · simp only [hgt, if_false]
          rw [hf]
          show bucketAcc (some existing) (bucket k rest)
            = bucketAcc (some (pickNewer existing a)) (bucket k rest)
          rw [pickNewer, if_neg hgt]
    · have hb : bucket k (a :: rest) = bucket k rest := by
        simp [bucket, hk]
      rw [hb, dedupStep_eq]
      cases hf : mapFind? (normalizeTitle a.title) m with
      | none =>
        show bucketAcc (mapFind? k (mapSet (normalizeTitle a.title) a m)) (bucket k rest)
          = bucketAcc (mapFind? k m) (bucket k rest)
        rw [mapFind?_mapSet_ne _ _ _ _ hk]
      | some existing =>
        by_cases hgt : a.publishedAt > existing.publishedAt
        · simp only [hgt, if_true]
          show bucketAcc (mapFind? k (mapSet (normalizeTitle a.title) a m)) (bucket k rest)
            = bucketAcc (mapFind? k m) (bucket k rest)
          rw [mapFind?_mapSet_ne _ _ _ _ hk]
        · simp only [hgt, if_false]

theorem filter_map_snd (m : List (String × InsertArticle)) (k : String)
    (hok : KeysOK m) (hnd : (m.map Prod.fst).Nodup) :
    (m.map Prod.snd).filter (fun a => normalizeTitle a.title = k)
      = (mapFind? k m).toList := by
  induction m with
  | nil => simp [mapFind?]
  | cons p m ih =>
    have hokm : KeysOK m := fun q hq => hok q (List.mem_cons_of_mem _ hq)
    simp only [List.map_cons, List.nodup_cons] at hnd
    have hhead : normalizeTitle p.2.title = p.1 := hok p (List.mem_cons_self _ _)
    by_cases hp : p.1 = k
    · subst hp
      have hfil : (m.map Prod.snd).filter (fun a => normalizeTitle a.title = p.1) = [] := by
        apply List.filter_eq_nil_iff.mpr
        intro b hb
        obtain ⟨q, hq, hq2⟩ := List.mem_map.mp hb
        have hbq : normalizeTitle b.title = q.1 := hq2 ▸ hokm q hq
        rw [hbq]
        simp only [decide_eq_true_eq]
        intro he
        exact hnd.1 (by rw [← he]; exact List.mem_map.mpr ⟨q, hq, rfl⟩)
      simp [mapFind?, List.filter_cons, hhead, hfil]
    · have hcond : decide (normalizeTitle p.2.title = k) = false := by
        simp [hhead, hp]
      simp only [List.map_cons, List.filter_cons, hcond, mapFind?, hp, if_false,
        Bool.false_eq_true]
      exact ih hokm hnd.2

theorem bucketAcc_first_max (l : List InsertArticle) :
    ∀ e : InsertArticle, ∃ r, bucketAcc (some e) l = some r ∧
      (∀ a ∈ e :: l, a.publishedAt ≤ r.publishedAt) ∧
      (e :: l).find? (fun a => decide (a.publishedAt = r.publishedAt)) = some r := by
  induction l with
  | nil =>
    intro e
    refine ⟨e, rfl, ?_, ?_⟩
    · intro a ha; rw [List.mem_singleton.mp ha]
    · simp [List.find?]
  | cons a l ih =>
    intro e
    by_cases hgt : a.publishedAt > e.publishedAt
    · obtain ⟨r, hr, hb, hf⟩ := ih a
      have har : a.publishedAt ≤ r.publishedAt := hb a (List.mem_cons_self _ _)
      refine ⟨r, ?_, ?_, ?_⟩
      · rw [show bucketAcc (some e) (a :: l) = bucketAcc (some (pickNewer e a)) l from rfl,
          pickNewer, if_pos hgt]
        exact hr
      · intro x hx
        rcases List.mem_cons.mp hx with h | h
        · rw [h]; omega
        · exact hb x h
      · have he : ¬ ((fun x => decide (x.publishedAt = r.publishedAt)) e = true) := by
          simp only [decide_eq_true_eq]
          omega
        exact (List.find?_cons_of_neg (a :: l) he).trans hf
    · obtain ⟨r, hr, hb, hf⟩ := ih e
      have her : e.publishedAt ≤ r.publishedAt := hb e (List.mem_cons_self _ _)
      refine ⟨r, ?_, ?_, ?_⟩
      · rw [show bucketAcc (some e) (a :: l) = bucketAcc (some (pickNewer e a)) l from rfl,
          pickNewer, if_neg hgt]
        exact hr
      · intro x hx
        rcases List.mem_cons.mp hx with h | h
        · exact hb x (h ▸ List.mem_cons_self _ _)
        · rcases List.mem_cons.mp h with h' | h'
          · rw [h']; omega
          · exact hb x (List.mem_cons_of_mem _ h')
      · by_cases he : e.publishedAt = r.publishedAt
        · have hpos : (fun x => decide (x.publishedAt = r.publishedAt)) e = true := by
            simp [he]
          have h1 : some e = some r := (List.find?_cons_of_pos l hpos).symm.trans hf
          exact (List.find?_cons_of_pos (a :: l) hpos).trans h1
        · have hef : ¬ ((fun x => decide (x.publishedAt = r.publishedAt)) e = true) := by
            simp only [decide_eq_true_eq]
            exact he
          have h2 : List.find? (fun x => decide (x.publishedAt = r.publishedAt)) l = some r :=
            (List.find?_cons_of_neg l hef).symm.trans hf
          have haf : ¬ ((fun x => decide (x.publishedAt = r.publishedAt)) a = true) := by
            simp only [decide_eq_true_eq]
            have hae : ¬ (a.publishedAt > e.publishedAt) := hgt
            omega
          exact (List.find?_cons_of_neg (a :: l) hef).trans
            ((List.find?_cons_of_neg l haf).trans h2)

theorem mapFind?_append_none {α : Type} (k : String) (m₁ m₂ : List (String × α))
    (h : mapFind? k m₁ = none) : mapFind? k (m₁ ++ m₂) = mapFind? k m₂ := by
  induction m₁ with
  | nil => simp
  | cons p m ih =>
    by_cases hp : p.1 = k
    · simp [mapFind?, hp] at h
    · simp only [mapFind?, hp, if_false] at h
      simp only [List.cons_append, mapFind?, hp, if_false]
      exact ih h

theorem dedup_lexical_nodup_keys (input : List InsertArticle) :
    ((deduplicateArticlesLexical input).map (fun a => normalizeTitle a.title)).Nodup := by
  have hok := keysOK_foldl input [] (fun p hp => absurd hp (List.not_mem_nil p))
  have hnd := nodupKeys_foldl input [] List.nodup_nil
  unfold deduplicateArticlesLexical
  rw [List.map_map]
  have heq : (List.foldl dedupStep [] input).map ((fun a => normalizeTitle a.title) ∘ Prod.snd)
      = (List.foldl dedupStep [] input).map Prod.fst :=
    List.map_congr_left (fun p hp => hok p hp)
  rw [heq]
  exact hnd

theorem foldl_dedupStep_fresh (l : List InsertArticle) :
    ∀ m, (∀ a ∈ l, mapFind? (normalizeTitle a.title) m = none) →
    (l.map (fun a => normalizeTitle a.title)).Nodup →
    l.foldl dedupStep m = m ++ l.map (fun a => (normalizeTitle a.title, a)) := by
  induction l with
  | nil => intro m _ _; simp
  | cons a rest ih =>
    intro m hfresh hnd
    simp only [List.map_cons, List.nodup_cons] at hnd
    have hstep : dedupStep m a = m ++ [(normalizeTitle a.title, a)] := by
      rw [dedupStep_eq, hfresh a (List.mem_cons_self _ _)]
      exact mapSet_of_not_mem _ _ _ (hfresh a (List.mem_cons_self _ _))
    rw [List.foldl_cons, hstep]
    rw [ih (m ++ [(normalizeTitle a.title, a)]) ?fresh hnd.2]
    · simp
    case fresh =>
      intro b hb
      rw [mapFind?_append_none _ _ _ (hfresh b (List.mem_cons_of_mem _ hb))]
      have hne : normalizeTitle a.title ≠ normalizeTitle b.title := by
        intro he
        exact hnd.1 (he ▸ List.mem_map.mpr ⟨b, hb, rfl⟩)
      simp [mapFind?, hne]

theorem dedup_lexical_of_nodup (l : List InsertArticle)
    (hnd : (l.map (fun a => normalizeTitle a.title)).Nodup) :
    deduplicateArticlesLexical l = l := by
  unfold deduplicateArticlesLexical
  rw [foldl_dedupStep_fresh l [] (fun b _ => rfl) hnd, List.nil_append, List.map_map]
  rw [show (Prod.snd ∘ fun a : InsertArticle => (normalizeTitle a.title, a)) = id from rfl,
    List.map_id]

/-- C2: phase-1 lexical deduplication buckets the input by the normalized title
key (lowercase, strip characters outside word characters and Hangul, trim,
truncate to 50 code points) and keeps exactly one representative per non-empty
bucket: the first article of the bucket attaining the maximal `publishedAt`,
i.e. the most recent one, ties resolved in favour of the earliest in input
order; keys without articles produce no output. -/
theorem lexical_dedup_buckets (input : List InsertArticle) (k : String) :
    (bucket k input = [] →
      (deduplicateArticlesLexical input).filter (fun a => normalizeTitle a.title = k) = []) ∧
    (bucket k input ≠ [] → ∃ r,
      (deduplicateArticlesLexical input).filter (fun a => normalizeTitle a.title = k) = [r] ∧
      (∀ a ∈ bucket k input, a.publishedAt ≤ r.publishedAt) ∧
      (bucket k input).find? (fun a => decide (a.publishedAt = r.publishedAt)) = some r) := by
  have hok := keysOK_foldl input [] (fun p hp => absurd hp (List.not_mem_nil p))
  have hnd := nodupKeys_foldl input [] List.nodup_nil
  have hfil := filter_map_snd (input.foldl dedupStep []) k hok hnd
  have hlook := mapFind?_foldl_dedupStep input [] k
  constructor
  · intro hb
    show (List.map Prod.snd (input.foldl dedupStep [])).filter
        (fun a => normalizeTitle a.title = k) = []
    rw [hfil, hlook, hb]
    rfl
  · intro hb
    obtain ⟨a, l, hal⟩ := List.exists_cons_of_ne_nil hb
    obtain ⟨r, hr, hbound, hfind⟩ := bucketAcc_first_max l a
    refine ⟨r, ?_, ?_, ?_⟩
    · show (List.map Prod.snd (input.foldl dedupStep [])).filter
          (fun a => normalizeTitle a.title = k) = [r]
      rw [hfil, hlook, hal]
      show (bucketAcc (some a) l).toList = [r]
      rw [hr]
      rfl
    · rw [hal]; exact hbound
    · rw [hal]; exact hfind

/-- Witness for C2 at the spec scenario: two same-bucket articles, the later
published one survives. -/
theorem lexical_dedup_buckets_witness :
    ∃ r, (deduplicateArticlesLexical
        [⟨"Apple event", none, "u1", none, "newsapi", 0, none⟩,
         ⟨"apple event!!", none, "u2", none, "naver", 60000, none⟩]).filter
        (fun a => normalizeTitle a.title = "apple event") = [r] ∧
      (∀ a ∈ bucket "apple event"
        [⟨"Apple event", none, "u1", none, "newsapi", 0, none⟩,
         ⟨"apple event!!", none, "u2", none, "naver", 60000, none⟩],
        a.publishedAt ≤ r.publishedAt) ∧
      (bucket "apple event"
        [⟨"Apple event", none, "u1", none, "newsapi", 0, none⟩,
         ⟨"apple event!!", none, "u2", none, "naver", 60000, none⟩]).find?
        (fun a => decide (a.publishedAt = r.publishedAt)) = some r :=
  (lexical_dedup_buckets
    [⟨"Apple event", none, "u1", none, "newsapi", 0, none⟩,
     ⟨"apple event!!", none, "u2", none, "naver", 60000, none⟩] "apple event").2
    (by decide)

/-- C3: phase-1 lexical deduplication is idempotent: running it on its own
output returns that output unchanged, elementwise and in order. -/
theorem lexical_dedup_idempotent (input : List InsertArticle) :
    deduplicateArticlesLexical (deduplicateArticlesLexical input)
      = deduplicateArticlesLexical input :=
  dedup_lexical_of_nodup _ (dedup_lexical_nodup_keys input)

/-! ## Article store (DatabaseStorage, server storage layer) -/

/-- The persisted articles table plus the id source. Rows are kept in
insertion order; `articles.url` carries a unique constraint. -/
structure StoreState where
  rows : List Article
  nextId : Nat
deriving DecidableEq, Repr

/-- An empty database. -/
def initialStore : StoreState := ⟨[], 0⟩

/-- `DatabaseStorage.getArticleByUrl`: select the row with the given url. -/
def getArticleByUrl (s : StoreState) (url : String) : Option Article :=
  s.rows.find? (fun r => r.url = url)

/-- `DatabaseStorage.createArticle`: insert the article; on the unique
constraint violation for a duplicate `url` (Postgres error 23505) re-fetch by
url and return the existing row instead. The UTC normalization
`new Date(article.publishedAt.toISOString())` is the identity on epoch
milliseconds. -/
def createArticle (s : StoreState) (article : InsertArticle) :
    StoreState × Option Article :=
  match getArticleByUrl s article.url with
  | some existing => (s, some existing)
  | none => (⟨s.rows ++ [⟨article, s.nextId⟩], s.nextId + 1⟩, some ⟨article, s.nextId⟩)

/-- A sequence of `createArticle` calls threaded through the store. -/
def runCreates (s : StoreState) (l : List InsertArticle) : StoreState :=
  l.foldl (fun s a => (createArticle s a).1) s

theorem find?_append_some {α : Type} (p : α → Bool) (l₁ l₂ : List α) (r : α)
    (h : l₁.find? p = some r) : (l₁ ++ l₂).find? p = some r := by
  induction l₁ with
  | nil => simp [List.find?] at h
  | cons x l ih =>
    by_cases hx : p x = true
    · rw [List.find?_cons_of_pos _ hx] at h
      rw [List.cons_append, List.find?_cons_of_pos _ hx]
      exact h
    · rw [List.find?_cons_of_neg _ hx] at h
      rw [List.cons_append, List.find?_cons_of_neg _ hx]
      exact ih h

theorem find?_append_none {α : Type} (p : α → Bool) (l₁ l₂ : List α)
    (h : l₁.find? p = none) : (l₁ ++ l₂).find? p = l₂.find? p := by
  induction l₁ with
  | nil => simp
  | cons x l ih =>
    by_cases hx : p x = true
    · rw [List.find?_cons_of_pos _ hx] at h
      exact absurd h (by simp)
    · rw [List.find?_cons_of_neg _ hx] at h
      rw [List.cons_append, List.find?_cons_of_neg _ hx]
      exact ih h

theorem getArticleByUrl_createArticle (s : StoreState) (a : InsertArticle)
    (u : String) (r : Article) (h : getArticleByUrl s u = some r) :
    getArticleByUrl (createArticle s a).1 u = some r := by
  unfold createArticle
  cases hf : getArticleByUrl s a.url with
  | some e => exact h
  | none =>
    show getArticleByUrl ⟨s.rows ++ [⟨a, s.nextId⟩], s.nextId + 1⟩ u = some r
    unfold getArticleByUrl at h ⊢
    exact find?_append_some _ _ _ _ h

theorem runCreates_preserves (l : List InsertArticle) :
    ∀ (s : StoreState) (u : String) (r : Article), getArticleByUrl s u = some r →
      getArticleByUrl (runCreates s l) u = some r := by
  induction l with
  | nil => intro s u r h; exact h
  | cons a rest ih =>
    intro s u r h
    exact ih _ _ _ (getArticleByUrl_createArticle s a u r h)

theorem getArticleByUrl_runCreates (l : List InsertArticle) :
    ∀ (s : StoreState) (u : String), getArticleByUrl s u = none →
    (getArticleByUrl (runCreates s l) u).map (fun row => row.toInsertArticle)
      = l.find? (fun x => x.url = u) := by
  induction l with
  | nil =>
    intro s u h
    show (getArticleByUrl s u).map _ = _
    rw [h]
    rfl
  | cons a rest ih =>
    intro s u h
    show (getArticleByUrl (runCreates (createArticle s a).1 rest) u).map _ = _
    by_cases hu : a.url = u
    · subst hu
      have hc : (createArticle s a).1 = ⟨s.rows ++ [⟨a, s.nextId⟩], s.nextId + 1⟩ := by
        unfold createArticle
        rw [h]
      have hlook : getArticleByUrl (createArticle s a).1 a.url = some ⟨a, s.nextId⟩ := by
        rw [hc]
        unfold getArticleByUrl at h ⊢
        rw [find?_append_none _ _ _ h]
        exact List.find?_cons_of_pos _ (by simp)
      rw [runCreates_preserves rest _ _ _ hlook]
      rw [List.find?_cons_of_pos _ (by simp)]
      rfl
    · have hnone : getArticleByUrl (createArticle s a).1 u = none := by
        unfold createArticle
        cases hf : getArticleByUrl s a.url with
        | some e => exact h
        | none =>
          show getArticleByUrl ⟨s.rows ++ [⟨a, s.nextId⟩], s.nextId + 1⟩ u = none
          unfold getArticleByUrl at h ⊢
          rw [find?_append_none _ _ _ h]
          rw [List.find?_cons_of_neg _ (by simpa using hu)]
          rfl
      rw [ih _ _ hnone]
      rw [List.find?_cons_of_neg _ (by simpa using hu)]

theorem nodup_urls_createArticle (s : StoreState) (a : InsertArticle)
    (h : (s.rows.map (fun row => row.url)).Nodup) :
    ((createArticle s a).1.rows.map (fun row => row.url)).Nodup := by
  unfold createArticle
  cases hf : getArticleByUrl s a.url with
  | some e => exact h
  | none =>
    show ((s.rows ++ [(⟨a, s.nextId⟩ : Article)]).map (fun row => row.url)).Nodup
    rw [List.map_append]
    refine List.Nodup.append h (List.nodup_singleton _) ?_
    intro x hx hx'
    have hxa : x = a.url := by simpa using hx'
    subst hxa
    obtain ⟨row, hrow, hurl⟩ := List.mem_map.mp hx
    unfold getArticleByUrl at hf
    have h2 := List.find?_eq_none.mp hf row hrow
    simp [hurl] at h2

theorem nodup_urls_runCreates (l : List InsertArticle) :
    ∀ s : StoreState, (s.rows.map (fun row => row.url)).Nodup →
    ((runCreates s l).rows.map (fun row => row.url)).Nodup := by
  induction l with
  | nil => intro s h; exact h
  | cons a rest ih =>
    intro s h
    exact ih _ (nodup_urls_createArticle s a h)

/-- C1: across any sequence of `createArticle` upserts the stored table never
holds two rows with the same url; for any url the surviving row carries the
fields of the first article of the sequence with that url; and an upsert whose
url is already stored leaves the store unchanged and returns the existing row
rather than erroring. -/
theorem article_store_first_writer_wins (l : List InsertArticle) (u : String)
    (s : StoreState) (a : InsertArticle) (r : Article) :
    ((runCreates initialStore l).rows.map (fun row => row.url)).Nodup ∧
    ((getArticleByUrl (runCreates initialStore l) u).map (fun row => row.toInsertArticle)
      = l.find? (fun x => x.url = u)) ∧
    (getArticleByUrl s a.url = some r → createArticle s a = (s, some r)) := by
  refine ⟨?_, ?_, ?_⟩
  · exact nodup_urls_runCreates l initialStore (by simp [initialStore])
  · exact getArticleByUrl_runCreates l initialStore u rfl
  · intro h
    unfold createArticle
    rw [h]

/-- Witness for C1: two inserts with the same url; the second upsert returns
the first row and leaves the store unchanged. -/
theorem article_store_first_writer_wins_witness :
    ((runCreates initialStore
      [⟨"t1", none, "u", none, "newsapi", 5, none⟩,
       ⟨"t2", none, "u", none, "naver", 9, none⟩]).rows.map (fun row => row.url)).Nodup ∧
    ((getArticleByUrl (runCreates initialStore
      [⟨"t1", none, "u", none, "newsapi", 5, none⟩,
       ⟨"t2", none, "u", none, "naver", 9, none⟩]) "u").map (fun row => row.toInsertArticle)
      = [(⟨"t1", none, "u", none, "newsapi", 5, none⟩ : InsertArticle),
         ⟨"t2", none, "u", none, "naver", 9, none⟩].find? (fun x => x.url = "u")) ∧
    (createArticle ⟨[⟨⟨"t1", none, "u", none, "newsapi", 5, none⟩, 0⟩], 1⟩
        ⟨"t2", none, "u", none, "naver", 9, none⟩
      = (⟨[⟨⟨"t1", none, "u", none, "newsapi", 5, none⟩, 0⟩], 1⟩,
         some ⟨⟨"t1", none, "u", none, "newsapi", 5, none⟩, 0⟩)) := by
  have h := article_store_first_writer_wins
    [⟨"t1", none, "u", none, "newsapi", 5, none⟩,
     ⟨"t2", none, "u", none, "naver", 9, none⟩] "u"
    ⟨[⟨⟨"t1", none, "u", none, "newsapi", 5, none⟩, 0⟩], 1⟩
    ⟨"t2", none, "u", none, "naver", 9, none⟩
    ⟨⟨"t1", none, "u", none, "newsapi", 5, none⟩, 0⟩
  exact ⟨h.1, h.2.1, h.2.2 (by decide)⟩

/-! ## Embedding similarity (embeddingService) -/

/-- The accumulation loop of `cosineSimilarity`: dot product and the two
squared norms over the common prefix of the vectors; under the length guard
the vectors have equal length, so this is the whole of both vectors. The
accumulation order differs from the source loop, which is irrelevant in exact
arithmetic. -/
def cosineLoop : List ℚ → List ℚ → ℚ × ℚ × ℚ
  | a :: as, b :: bs =>
      ((cosineLoop as bs).1 + a * b,
       (cosineLoop as bs).2.1 + a ^ 2,
       (cosineLoop as bs).2.2 + b ^ 2)
  | _, _ => (0, 0, 0)

/-- `cosineSimilarity` (embeddingService): throws when the vectors differ in
length; otherwise divides the dot product by the product of the two vector
magnitudes, returning 0 instead when that product is zero. The floating point
numbers of the source are modelled by exact reals, hence noncomputable. -/
noncomputable def cosineSimilarity (vecA vecB : List ℚ) : Except String ℝ :=
  if vecA.length ≠ vecB.length then .error "Vectors must have the same length"
  else if Real.sqrt ((cosineLoop vecA vecB).2.1 : ℝ) *
      Real.sqrt ((cosineLoop vecA vecB).2.2 : ℝ) = 0 then .ok 0
  else .ok (((cosineLoop vecA vecB).1 : ℝ) /
    (Real.sqrt ((cosineLoop vecA vecB).2.1 : ℝ) *
     Real.sqrt ((cosineLoop vecA vecB).2.2 : ℝ)))

/-- `areArticlesSimilar` (embeddingService): cosine similarity at least the
0.85 default threshold, the thrown length-mismatch error modelled as
`Except.error`. The comparison of the real similarity with 0.85 is implemented
by the equivalent exact rational test (no similarity when a magnitude is zero,
otherwise a nonnegative dot product whose square reaches 289/400 of the
product of the squared norms); `areArticlesSimilar_matches_cosine` below
proves this agrees with comparing `cosineSimilarity` against 0.85. -/
def areArticlesSimilar (embedding1 embedding2 : List ℚ) : Except String Bool :=
  if embedding1.length ≠ embedding2.length then
    .error "Vectors must have the same length"
  else if (cosineLoop embedding1 embedding2).2.1 = 0 ∨
      (cosineLoop embedding1 embedding2).2.2 = 0 then .ok false
  else .ok (decide (0 ≤ (cosineLoop embedding1 embedding2).1 ∧
    289 * ((cosineLoop embedding1 embedding2).2.1 * (cosineLoop embedding1 embedding2).2.2)
      ≤ 400 * (cosineLoop embedding1 embedding2).1 ^ 2))

theorem cosineLoop_nonneg (va vb : List ℚ) :
    0 ≤ (cosineLoop va vb).2.1 ∧ 0 ≤ (cosineLoop va vb).2.2 := by
  induction va generalizing vb with
  | nil => cases vb <;> simp [cosineLoop]
  | cons a as ih =>
    cases vb with
    | nil => simp [cosineLoop]
    | cons b bs =>
      obtain ⟨h1, h2⟩ := ih bs
      constructor
      · show 0 ≤ (cosineLoop as bs).2.1 + a ^ 2
        have := sq_nonneg a
        linarith
      · show 0 ≤ (cosineLoop as bs).2.2 + b ^ 2
        have := sq_nonneg b
        linarith

theorem cosineLoop_normA_zero (va : List ℚ) :
    ∀ vb, (∀ x ∈ va, x = 0) → (cosineLoop va vb).2.1 = 0 := by
  induction va with
  | nil => intro vb _; cases vb <;> rfl
  | cons a as ih =>
    intro vb h
    cases vb with
    | nil => rfl
    | cons b bs =>
      show (cosineLoop as bs).2.1 + a ^ 2 = 0
      rw [ih bs (fun x hx => h x (List.mem_cons_of_mem _ hx)),
        h a (List.mem_cons_self _ _)]
      ring

theorem cosineLoop_normB_zero (va : List ℚ) :
    ∀ vb, (∀ x ∈ vb, x = 0) → (cosineLoop va vb).2.2 = 0 := by
  induction va with
  | nil => intro vb _; cases vb <;> rfl
  | cons a as ih =>
    intro vb h
    cases vb with
    | nil => rfl
    | cons b bs =>
      show (cosineLoop as bs).2.2 + b ^ 2 = 0
      rw [ih bs (fun x hx => h x (List.mem_cons_of_mem _ hx)),
        h b (List.mem_cons_self _ _)]
      ring

/-- Fidelity of the rational test inside `areArticlesSimilar`: whenever both
functions return, the boolean equals the comparison of the real-valued
`cosineSimilarity` with the 0.85 threshold. -/
theorem areArticlesSimilar_matches_cosine (e1 e2 : List ℚ) (b : Bool) (s : ℝ)
    (hb : areArticlesSimilar e1 e2 = .ok b)
    (hs : cosineSimilarity e1 e2 = .ok s) :
    b = true ↔ (17 / 20 : ℝ) ≤ s := by
  by_cases hlen : e1.length ≠ e2.length
  · rw [areArticlesSimilar, if_pos hlen] at hb
    exact absurd hb (by simp)
  · rw [areArticlesSimilar, if_neg hlen] at hb
    rw [cosineSimilarity, if_neg hlen] at hs
    obtain ⟨hA, hB⟩ := cosineLoop_nonneg e1 e2
    by_cases hz : (cosineLoop e1 e2).2.1 = 0 ∨ (cosineLoop e1 e2).2.2 = 0
    · rw [if_pos hz] at hb
      have hb2 : b = false := (Except.ok.inj hb).symm
      have hmag : Real.sqrt ((cosineLoop e1 e2).2.1 : ℝ) *
          Real.sqrt ((cosineLoop e1 e2).2.2 : ℝ) = 0 := by
        rcases hz with h | h
        · rw [h]; simp
        · rw [h]; simp
      rw [if_pos hmag] at hs
      have hs2 : s = 0 := (Except.ok.inj hs).symm
      rw [hb2, hs2]
      norm_num
    · rw [if_neg hz] at hb
      push_neg at hz
      obtain ⟨hA0, hB0⟩ := hz
      have hApos : 0 < (cosineLoop e1 e2).2.1 := lt_of_le_of_ne hA (Ne.symm hA0)
      have hBpos : 0 < (cosineLoop e1 e2).2.2 := lt_of_le_of_ne hB (Ne.symm hB0)
      have hsA : (0:ℝ) < Real.sqrt ((cosineLoop e1 e2).2.1 : ℝ) :=
        Real.sqrt_pos.mpr (by exact_mod_cast hApos)
      have hsB : (0:ℝ) < Real.sqrt ((cosineLoop e1 e2).2.2 : ℝ) :=
        Real.sqrt_pos.mpr (by exact_mod_cast hBpos)
      have hm : (0:ℝ) < Real.sqrt ((cosineLoop e1 e2).2.1 : ℝ) *
          Real.sqrt ((cosineLoop e1 e2).2.2 : ℝ) := mul_pos hsA hsB
      rw [if_neg (ne_of_gt hm)] at hs
      have hb2 : b = decide (0 ≤ (cosineLoop e1 e2).1 ∧
          289 * ((cosineLoop e1 e2).2.1 * (cosineLoop e1 e2).2.2)
            ≤ 400 * (cosineLoop e1 e2).1 ^ 2) := (Except.ok.inj hb).symm
      have hs2 : s = ((cosineLoop e1 e2).1 : ℝ) /
          (Real.sqrt ((cosineLoop e1 e2).2.1 : ℝ) *
           Real.sqrt ((cosineLoop e1 e2).2.2 : ℝ)) := (Except.ok.inj hs).symm
      rw [hb2, hs2, decide_eq_true_eq, le_div_iff₀ hm]
      have hm2 : (Real.sqrt ((cosineLoop e1 e2).2.1 : ℝ) *
          Real.sqrt ((cosineLoop e1 e2).2.2 : ℝ)) ^ 2
          = ((cosineLoop e1 e2).2.1 : ℝ) * ((cosineLoop e1 e2).2.2 : ℝ) := by
        rw [mul_pow, Real.sq_sqrt (by exact_mod_cast hA), Real.sq_sqrt (by exact_mod_cast hB)]
      constructor
      · rintro ⟨hd0, hsq⟩
        have hd0r : (0:ℝ) ≤ ((cosineLoop e1 e2).1 : ℝ) := by exact_mod_cast hd0
        have hsqr : (289:ℝ) * (((cosineLoop e1 e2).2.1 : ℝ) * ((cosineLoop e1 e2).2.2 : ℝ))
            ≤ 400 * ((cosineLoop e1 e2).1 : ℝ) ^ 2 := by exact_mod_cast hsq
        nlinarith [hm, hd0r, hsqr, hm2]
      · intro h
        have hd0r : (0:ℝ) ≤ ((cosineLoop e1 e2).1 : ℝ) := by nlinarith [hm, h]
        have hsqr : (289:ℝ) * (((cosineLoop e1 e2).2.1 : ℝ) * ((cosineLoop e1 e2).2.2 : ℝ))
            ≤ 400 * ((cosineLoop e1 e2).1 : ℝ) ^ 2 := by nlinarith [hm, h, hm2]
        constructor
        · exact_mod_cast hd0r
        · exact_mod_cast hsqr

/-- C8: `cosineSimilarity` fails exactly when the two vectors differ in
length; on equal lengths it always returns a value, and a zero-magnitude
input (all entries zero, including empty vectors) yields the value 0 rather
than a division error. -/
theorem cosine_similarity_error_handling (vecA vecB : List ℚ) :
    ((∃ e, cosineSimilarity vecA vecB = .error e) ↔ vecA.length ≠ vecB.length) ∧
    (vecA.length = vecB.length → ∃ v, cosineSimilarity vecA vecB = .ok v) ∧
    (vecA.length = vecB.length →
      ((∀ x ∈ vecA, x = 0) ∨ (∀ x ∈ vecB, x = 0)) →
      cosineSimilarity vecA vecB = .ok 0) := by
  refine ⟨⟨?_, ?_⟩, ?_, ?_⟩
  · rintro ⟨e, he⟩
    by_contra hlen
    rw [cosineSimilarity,
      if_neg (show ¬ (vecA.length ≠ vecB.length) from fun h => h hlen)] at he
    by_cases hmag : Real.sqrt ((cosineLoop vecA vecB).2.1 : ℝ) *
        Real.sqrt ((cosineLoop vecA vecB).2.2 : ℝ) = 0
    · rw [if_pos hmag] at he
      exact Except.noConfusion he
    · rw [if_neg hmag] at he
      exact Except.noConfusion he
  · intro hlen
    exact ⟨"Vectors must have the same length", by rw [cosineSimilarity, if_pos hlen]⟩
  · intro hlen
    rw [cosineSimilarity, if_neg (by rw [hlen]; exact fun h => h rfl)]
    by_cases hmag : Real.sqrt ((cosineLoop vecA vecB).2.1 : ℝ) *
        Real.sqrt ((cosineLoop vecA vecB).2.2 : ℝ) = 0
    · rw [if_pos hmag]
      exact ⟨0, rfl⟩
    · rw [if_neg hmag]
      exact ⟨_, rfl⟩
  · intro hlen hzero
    have hmag : Real.sqrt ((cosineLoop vecA vecB).2.1 : ℝ) *
        Real.sqrt ((cosineLoop vecA vecB).2.2 : ℝ) = 0 := by
      rcases hzero with h | h
      · rw [cosineLoop_normA_zero vecA vecB h]; simp
      · rw [cosineLoop_normB_zero vecA vecB h]; simp
    rw [cosineSimilarity, if_neg (by rw [hlen]; exact fun h => h rfl), if_pos hmag]

/-- Witness for C8: mismatched lengths error; the all-zero pair `[0] [0]`
yields similarity 0. -/
theorem cosine_similarity_error_handling_witness :
    (∃ e, cosineSimilarity [1] [1, 2] = .error e) ∧
    cosineSimilarity [0] [0] = .ok 0 :=
  ⟨(cosine_similarity_error_handling [1] [1, 2]).1.mpr (by decide),
   (cosine_similarity_error_handling [0] [0]).2.2 rfl
     (Or.inl (fun x hx => by simpa using hx))⟩

/-! ## Phase-2 semantic deduplication (newsService `deduplicateArticles`) -/

/-- A phase-1 survivor paired with its embedding as produced by the
bounded-concurrency embedding pass: `{ article, embedding: embedding || [] }`,
so a failed request yields the empty list. -/
structure EmbeddedArticle where
  article : InsertArticle
  embedding : List ℚ
deriving DecidableEq, Repr

/-- The inner loop of the semantic pass for one incoming item: scan the kept
articles in order; at the first sufficiently similar kept entry (compared only
when both embeddings are nonempty) mark the item a duplicate — replacing that
kept entry in place when the item is strictly more recent — and stop. Returns
the duplicate flag and the updated kept list; the length-mismatch throw of
`areArticlesSimilar` propagates as an error. -/
def scanKept (item : EmbeddedArticle) :
    List EmbeddedArticle → Except String (Bool × List EmbeddedArticle)
  | [] => .ok (false, [])
  | kept :: rest =>
    if item.embedding.length > 0 ∧ kept.embedding.length > 0 then
      match areArticlesSimilar item.embedding kept.embedding with
      | .error e => .error e
      | .ok true =>
          if item.article.publishedAt > kept.article.publishedAt then
            .ok (true, item :: rest)
          else
            .ok (true, kept :: rest)
      | .ok false =>
          match scanKept item rest with
          | .error e => .error e
          | .ok (b, rest') => .ok (b, kept :: rest')
    else
      match scanKept item rest with
      | .error e => .error e
      | .ok (b, rest') => .ok (b, kept :: rest')

/-- The outer loop of the semantic pass: fold the embedded articles through
`scanKept`, pushing non-duplicates onto the end of the kept list. -/
def semanticFold :
    List EmbeddedArticle → List EmbeddedArticle → Except String (List EmbeddedArticle)
  | acc, [] => .ok acc
  | acc, item :: rest =>
    match scanKept item acc with
    | .error e => .error e
    | .ok (isDuplicate, acc') =>
        semanticFold (if isDuplicate then acc' else acc' ++ [item]) rest

/-- The environment of the semantic pass: whether `OPENAI_API_KEY` is
configured, and the embedding oracle
(`generateArticleEmbedding(title, description)`; `none` models a failed
request). -/
structure DedupEnv where
  openAIKeyConfigured : Bool
  oracle : InsertArticle → Option (List ℚ)

/-- `deduplicateArticles` (newsService): phase-1 lexical dedup; then, when the
OpenAI key is configured and at least one embedding request succeeded, the
semantic pass over the survivors with their `embedding || []` results. The
source returns the kept articles with embeddings attached; the attachment is
projected away here (nothing downstream reads it). -/
def deduplicateArticles (env : DedupEnv) (articles : List InsertArticle) :
    Except String (List InsertArticle) :=
  if !env.openAIKeyConfigured then .ok (deduplicateArticlesLexical articles)
  else if (((deduplicateArticlesLexical articles).map (fun article =>
      EmbeddedArticle.mk article ((env.oracle article).getD []))).filter
      (fun r => r.embedding.length > 0)).length = 0 then
    .ok (deduplicateArticlesLexical articles)
  else
    match semanticFold [] ((deduplicateArticlesLexical articles).map (fun article =>
        EmbeddedArticle.mk article ((env.oracle article).getD []))) with
    | .error e => .error e
    | .ok semanticDeduped => .ok (semanticDeduped.map (fun r => r.article))

theorem scanKept_length (item : EmbeddedArticle) :
    ∀ (ks : List EmbeddedArticle) (b : Bool) (ks' : List EmbeddedArticle),
    scanKept item ks = .ok (b, ks') → ks'.length = ks.length := by
  intro ks
  induction ks with
  | nil =>
    intro b ks' h
    simp only [scanKept] at h
    cases h
    rfl
  | cons kept rest ih =>
    intro b ks' h
    simp only [scanKept] at h
    split at h
    · split at h
      · exact absurd h (by simp)
      · split at h
        · cases h; simp
        · cases h; simp
      · split at h
        · exact absurd h (by simp)
        · rename_i b' rest' heq
          cases h
          simpa using ih _ _ heq
    · split at h
      · exact absurd h (by simp)
      · rename_i b' rest' heq
        cases h
        simpa using ih _ _ heq

theorem semanticFold_length :
    ∀ (items acc out : List EmbeddedArticle),
    semanticFold acc items = .ok out → out.length ≤ acc.length + items.length := by
  intro items
  induction items with
  | nil =>
    intro acc out h
    simp only [semanticFold] at h
    cases h
    simp
  | cons item rest ih =>
    intro acc out h
    simp only [semanticFold] at h
    split at h
    · exact absurd h (by simp)
    · rename_i b acc' heq
      have hlen := scanKept_length item acc b acc' heq
      have := ih _ _ h
      by_cases hb : b = true
      · rw [hb, if_pos rfl] at this
        simp only [List.length_cons]
        omega
      · rw [if_neg hb] at this
        simp only [List.length_append, List.length_singleton] at this
        simp only [List.length_cons]
        omega

theorem scanKept_noembed (item : EmbeddedArticle) (h : item.embedding = []) :
    ∀ ks : List EmbeddedArticle, scanKept item ks = .ok (false, ks) := by
  intro ks
  induction ks with
  | nil => rfl
  | cons kept rest ih =>
    have hcond : ¬ (item.embedding.length > 0 ∧ kept.embedding.length > 0) := by
      rw [h]
      simp
    simp only [scanKept, if_neg hcond, ih]

theorem scanKept_preserves_noembed (item : EmbeddedArticle) :
    ∀ (ks : List EmbeddedArticle) (b : Bool) (ks' : List EmbeddedArticle)
      (x : EmbeddedArticle), scanKept item ks = .ok (b, ks') →
      x ∈ ks → x.embedding = [] → x ∈ ks' := by
  intro ks
  induction ks with
  | nil => intro b ks' x h hx _; cases hx
  | cons kept rest ih =>
    intro b ks' x h hx hxe
    simp only [scanKept] at h
    split at h
    · rename_i hcond
      split at h
      · exact absurd h (by simp)
      · have hxk : x ≠ kept := by
          intro he
          rw [← he, hxe] at hcond
          simp at hcond
        have hxr : x ∈ rest := by
          rcases List.mem_cons.mp hx with h' | h'
          · exact absurd h' hxk
          · exact h'
        split at h
        · cases h
          exact List.mem_cons_of_mem _ hxr
        · cases h
          exact List.mem_cons_of_mem _ hxr
      · split at h
        · exact absurd h (by simp)
        · rename_i b' rest' heq
          cases h
          rcases List.mem_cons.mp hx with h' | h'
          · exact h' ▸ List.mem_cons_self _ _
          · exact List.mem_cons_of_mem _ (ih _ _ _ heq h' hxe)
    · split at h
      · exact absurd h (by simp)
      · rename_i b' rest' heq
        cases h
        rcases List.mem_cons.mp hx with h' | h'
        · exact h' ▸ List.mem_cons_self _ _
        · exact List.mem_cons_of_mem _ (ih _ _ _ heq h' hxe)

theorem semanticFold_keeps_noembed :
    ∀ (items acc out : List EmbeddedArticle) (x : EmbeddedArticle),
    semanticFold acc items = .ok out → x.embedding = [] →
    (x ∈ acc ∨ x ∈ items) → x ∈ out := by
  intro items
  induction items with
  | nil =>
    intro acc out x h hxe hmem
    simp only [semanticFold] at h
    cases h
    rcases hmem with h' | h'
    · exact h'
    · cases h'
  | cons item rest ih =>
    intro acc out x h hxe hmem
    simp only [semanticFold] at h
    split at h
    · exact absurd h (by simp)
    · rename_i b acc' heq
      rcases hmem with h' | h'
      · have hx' : x ∈ acc' := scanKept_preserves_noembed item acc b acc' x heq h' hxe
        refine ih _ _ x h hxe (Or.inl ?_)
        by_cases hb : b = true
        · rw [hb, if_pos rfl]; exact hx'
        · rw [if_neg hb]; exact List.mem_append_left _ hx'
      · rcases List.mem_cons.mp h' with h'' | h''
        · subst h''
          rw [scanKept_noembed x hxe acc] at heq
          have hb : b = false := by
            have := Except.ok.inj heq
            exact (congrArg Prod.fst this).symm
          refine ih _ _ x h hxe (Or.inl ?_)
          rw [hb]
          simp only [Bool.false_eq_true, if_false]
          exact List.mem_append_right _ (List.mem_singleton_self x)
        · exact ih _ _ x h hxe (Or.inr h'')

/-- C4: the semantic pass is additive: any successful full dedupe output is at
most as long as the phase-1 (lexical-only) output, and when the OpenAI key is
not configured, or every embedding request for the phase-1 survivors failed,
the full dedupe returns the phase-1 result unchanged. -/
theorem dedupe_semantic_additive (env : DedupEnv) (articles : List InsertArticle) :
    (∀ out, deduplicateArticles env articles = .ok out →
      out.length ≤ (deduplicateArticlesLexical articles).length) ∧
    (env.openAIKeyConfigured = false →
      deduplicateArticles env articles = .ok (deduplicateArticlesLexical articles)) ∧
    ((∀ a ∈ deduplicateArticlesLexical articles, (env.oracle a).getD [] = []) →
      deduplicateArticles env articles = .ok (deduplicateArticlesLexical articles)) := by
  refine ⟨?_, ?_, ?_⟩
  · intro out h
    rw [deduplicateArticles] at h
    split at h
    · cases h; exact le_refl _
    · split at h
      · cases h; exact le_refl _
      · split at h
        · exact absurd h (by simp)
        · rename_i sd heq
          cases h
          rw [List.length_map]
          have := semanticFold_length _ _ _ heq
          simpa using this
  · intro hkey
    rw [deduplicateArticles, hkey]
    rfl
  · intro hfail
    rw [deduplicateArticles]
    by_cases hkey : env.openAIKeyConfigured = false
    · rw [hkey]; rfl
    · have hkey' : env.openAIKeyConfigured = true := by
        cases h : env.openAIKeyConfigured
        · exact absurd h hkey
        · rfl
      rw [hkey']
      have hfil : (((deduplicateArticlesLexical articles).map (fun article =>
          EmbeddedArticle.mk article ((env.oracle article).getD []))).filter
          (fun r => r.embedding.length > 0)).length = 0 := by
        rw [List.length_eq_zero]
        apply List.filter_eq_nil_iff.mpr
        intro r hr
        obtain ⟨a, ha, hra⟩ := List.mem_map.mp hr
        have : r.embedding = [] := by rw [← hra]; exact hfail a ha
        simp [this]
      simp [hfil]

/-- Witness for C4: a single-article input with the key configured and a
failing oracle returns the phase-1 result; its length bound holds; with the
key unconfigured the phase-1 result is also returned unchanged. -/
theorem dedupe_semantic_additive_witness :
    deduplicateArticles ⟨true, fun _ => none⟩
        [⟨"Title", none, "u", none, "bing", 0, none⟩]
      = .ok (deduplicateArticlesLexical [⟨"Title", none, "u", none, "bing", 0, none⟩]) ∧
    (deduplicateArticlesLexical [⟨"Title", none, "u", none, "bing", 0, none⟩]).length
      ≤ (deduplicateArticlesLexical [⟨"Title", none, "u", none, "bing", 0, none⟩]).length ∧
    deduplicateArticles ⟨false, fun _ => none⟩
        [⟨"Title", none, "u", none, "bing", 0, none⟩]
      = .ok (deduplicateArticlesLexical [⟨"Title", none, "u", none, "bing", 0, none⟩]) := by
  have h := dedupe_semantic_additive ⟨true, fun _ => none⟩
    [⟨"Title", none, "u", none, "bing", 0, none⟩]
  have h2 := dedupe_semantic_additive ⟨false, fun _ => none⟩
    [⟨"Title", none, "u", none, "bing", 0, none⟩]
  have hok := h.2.2 (fun a _ => rfl)
  exact ⟨hok, h.1 _ hok, h2.2.1 rfl⟩

/-- C5: a phase-1 survivor whose embedding request failed always appears in
the final output of the full dedupe: it is never compared, never discarded,
and never displaced by a later similar article. -/
theorem semantic_dedup_keeps_unembedded (env : DedupEnv)
    (articles out : List InsertArticle) (a : InsertArticle)
    (hout : deduplicateArticles env articles = .ok out)
    (ha : a ∈ deduplicateArticlesLexical articles)
    (hfail : (env.oracle a).getD [] = []) :
    a ∈ out := by
  rw [deduplicateArticles] at hout
  split at hout
  · cases hout; exact ha
  · split at hout
    · cases hout; exact ha
    · split at hout
      · exact absurd hout (by simp)
      · rename_i sd heq
        cases hout
        have hx : (⟨a, []⟩ : EmbeddedArticle) ∈ (deduplicateArticlesLexical articles).map
            (fun article => EmbeddedArticle.mk article ((env.oracle article).getD [])) := by
          refine List.mem_map.mpr ⟨a, ha, ?_⟩
          rw [hfail]
        have hmem := semanticFold_keeps_noembed _ [] sd ⟨a, []⟩ heq rfl (Or.inr hx)
        exact List.mem_map.mpr ⟨⟨a, []⟩, hmem, rfl⟩

/-- Witness for C5: with the key configured, one survivor embedding succeeds
and one fails; the failed one appears in the output. -/
theorem semantic_dedup_keeps_unembedded_witness :
    (⟨"Beta", none, "u2", none, "naver", 0, none⟩ : InsertArticle) ∈
      [(⟨"Alpha", none, "u1", none, "naver", 0, none⟩ : InsertArticle),
       ⟨"Beta", none, "u2", none, "naver", 0, none⟩] :=
  semantic_dedup_keeps_unembedded
    ⟨true, fun a => if a.title = "Alpha" then some [1] else none⟩
    [⟨"Alpha", none, "u1", none, "naver", 0, none⟩,
     ⟨"Beta", none, "u2", none, "naver", 0, none⟩]
    [⟨"Alpha", none, "u1", none, "naver", 0, none⟩,
     ⟨"Beta", none, "u2", none, "naver", 0, none⟩]
    ⟨"Beta", none, "u2", none, "naver", 0, none⟩
    (by rfl) (by decide) (by rfl)

/-! ## News search (newsService `searchNews` and its route) -/

/-- Insertion of one element into a sorted list, placing it before the first
element it relates to; the basic step of the stable sort below. -/
def insertSorted {α : Type} (le : α → α → Bool) (x : α) : List α → List α
  | [] => [x]
  | y :: ys => if le x y then x :: y :: ys else y :: insertSorted le x ys

/-- A stable sort by the given comparator. JavaScript `Array.prototype.sort`
is stable (ES2019), and with a consistent comparator any stable sort yields
the same list, so a structural insertion sort models the `sort` calls of the
source. -/
def jsSortBy {α : Type} (le : α → α → Bool) (l : List α) : List α :=
  l.foldr (insertSorted le) []

theorem insertSorted_perm {α : Type} (le : α → α → Bool) (x : α) (l : List α) :
    List.Perm (insertSorted le x l) (x :: l) := by
  induction l with
  | nil => exact List.Perm.refl _
  | cons y ys ih =>
    by_cases h : le x y = true
    · simp [insertSorted, h]
    · simp only [insertSorted, h, Bool.false_eq_true, if_false]
      exact (List.Perm.cons y ih).trans (List.Perm.swap x y ys)

theorem jsSortBy_perm {α : Type} (le : α → α → Bool) (l : List α) :
    List.Perm (jsSortBy le l) l := by
  induction l with
  | nil => exact List.Perm.refl _
  | cons a l ih =>
    exact (insertSorted_perm le a (jsSortBy le l)).trans (List.Perm.cons a ih)

theorem sorted_insertSorted {α : Type} (le : α → α → Bool)
    (htrans : ∀ a b c, le a b = true → le b c = true → le a c = true)
    (htot : ∀ a b, le a b = true ∨ le b a = true) (x : α) (l : List α)
    (hl : l.Pairwise (fun a b => le a b = true)) :
    (insertSorted le x l).Pairwise (fun a b => le a b = true) := by
  induction l with
  | nil => simp [insertSorted]
  | cons y ys ih =>
    rcases List.pairwise_cons.mp hl with ⟨hy, hys⟩
    by_cases h : le x y = true
    · simp only [insertSorted, h, if_true]
      refine List.Pairwise.cons ?_ hl
      intro z hz
      rcases List.mem_cons.mp hz with h' | h'
      · exact h' ▸ h
      · exact htrans x y z h (hy z h')
    · simp only [insertSorted, h, Bool.false_eq_true, if_false]
      refine List.Pairwise.cons ?_ (ih hys)
      intro z hz
      have hz' : z = x ∨ z ∈ ys := by
        have := (insertSorted_perm le x ys).mem_iff.mp hz
        simpa using this
      rcases hz' with h' | h'
      · rcases htot x y with h2 | h2
        · exact absurd h2 h
        · exact h' ▸ h2
      · exact hy z h'

theorem sorted_jsSortBy {α : Type} (le : α → α → Bool)
    (htrans : ∀ a b c, le a b = true → le b c = true → le a c = true)
    (htot : ∀ a b, le a b = true ∨ le b a = true) (l : List α) :
    (jsSortBy le l).Pairwise (fun a b => le a b = true) := by
  induction l with
  | nil => simp [jsSortBy]
  | cons a l ih => exact sorted_insertSorted le htrans htot a _ ih

/-- Stable descending sort by `publishedAt`, modelling the JavaScript
`sort((a, b) => b.publishedAt - a.publishedAt)` call. -/
def sortByPublishedAtDesc (l : List Article) : List Article :=
  jsSortBy (fun a b => decide (b.publishedAt ≤ a.publishedAt)) l

/-- The environment of one `searchNews` call: per-provider fetch outcomes
(the adapters' HTTP mappings are opaque here; missing credentials are an
`.ok []` outcome), the dedupe environment, and per-call persistence failures:
`persistFails i = true` means the i-th `storage.createArticle` call throws,
which the loop catches, dropping that one article. -/
structure SearchEnv where
  newsapiOutcome : Except String (List InsertArticle)
  naverOutcome : Except String (List InsertArticle)
  bingOutcome : Except String (List InsertArticle)
  dedup : DedupEnv
  persistFails : Nat → Bool

/-- `searchNewsAPI` (newsService): any API failure is caught internally and
reduced to an empty contribution. -/
def searchNewsAPI (env : SearchEnv) : List InsertArticle :=
  match env.newsapiOutcome with
  | .error _ => []
  | .ok articles => articles

/-- `searchNaverNews` (newsService): any API failure is caught internally and
reduced to an empty contribution. -/
def searchNaverNews (env : SearchEnv) : List InsertArticle :=
  match env.naverOutcome with
  | .error _ => []
  | .ok articles => articles

/-- `searchBingNews` (newsService): the simulated Bing source; modelled by its
outcome like the other adapters. -/
def searchBingNews (env : SearchEnv) : List InsertArticle :=
  match env.bingOutcome with
  | .error _ => []
  | .ok articles => articles

/-- Parameters of `searchNews`. `keyword`, `startDate` and `endDate` only feed
the provider queries (part of the opaque fetch outcomes). -/
structure SearchParams where
  keyword : String
  startDate : Option String
  endDate : Option String
  source : Option String
deriving DecidableEq, Repr

/-- The JavaScript test `source === name || source === "all" || !source`;
an absent or empty source string is falsy. -/
def sourceIncluded (source : Option String) (name : String) : Bool :=
  source = some name || source = some "all" || source = none || source = some ""

/-- The persistence loop of `searchNews`: each deduplicated article goes
through `storage.createArticle` inside try/catch — a throwing call is logged
and that article dropped, an `undefined` result is skipped — and the returned
rows are collected in order. `idx` counts the calls for the failure model. -/
def persistLoop (failAt : Nat → Bool) :
    StoreState → Nat → List InsertArticle → StoreState × List Article
  | s, _, [] => (s, [])
  | s, idx, a :: rest =>
    if failAt idx then persistLoop failAt s (idx + 1) rest
    else
      match createArticle s a with
      | (s', some row) =>
          ((persistLoop failAt s' (idx + 1) rest).1,
           row :: (persistLoop failAt s' (idx + 1) rest).2)
      | (s', none) => persistLoop failAt s' (idx + 1) rest

/-- `searchNews` (newsService): fetch from the providers selected by the
source filter, concatenate in fixed adapter order, run the two-phase dedupe,
persist every survivor (dropping individual persistence failures), and return
the persisted rows sorted by `publishedAt` descending along with the updated
store. The only uncaught exception is the one thrown inside the dedupe. -/
def searchNews (env : SearchEnv) (store : StoreState) (params : SearchParams) :
    Except String (StoreState × List Article) :=
  match deduplicateArticles env.dedup
      ((if sourceIncluded params.source "newsapi" then searchNewsAPI env else []) ++
       (if sourceIncluded params.source "naver" then searchNaverNews env else []) ++
       (if sourceIncluded params.source "bing" then searchBingNews env else [])) with
  | .error e => .error e
  | .ok deduplicated =>
      .ok ((persistLoop env.persistFails store 0 deduplicated).1,
        sortByPublishedAtDesc (persistLoop env.persistFails store 0 deduplicated).2)

/-- An HTTP response of the news-search route. -/
inductive RouteResponse where
  | ok (articles : List Article)
  | badRequest (message : String)
  | serverError (message : String)
deriving DecidableEq, Repr

/-- The `/api/news/search` handler (routes): a missing or empty keyword
(falsy under `!keyword`) is rejected as a 400 validation failure before any
search runs; a thrown search error becomes a 500; `source` defaults to
`"all"` when absent. -/
def newsSearchRoute (env : SearchEnv) (store : StoreState)
    (keyword startDate endDate source : Option String) :
    RouteResponse × StoreState :=
  match keyword with
  | none => (.badRequest "Keyword is required", store)
  | some k =>
    if k = "" then (.badRequest "Keyword is required", store)
    else
      match searchNews env store ⟨k, startDate, endDate, some (source.getD "all")⟩ with
      | .error _ => (.serverError "Failed to search news", store)
      | .ok res => (.ok res.2, res.1)

theorem areArticlesSimilar_error (e1 e2 : List ℚ) (msg : String)
    (h : areArticlesSimilar e1 e2 = .error msg) :
    msg = "Vectors must have the same length" := by
  rw [areArticlesSimilar] at h
  split at h
  · exact (Except.error.inj h).symm
  · split at h
    · exact absurd h (by simp)
    · exact absurd h (by simp)

theorem scanKept_error (item : EmbeddedArticle) :
    ∀ (ks : List EmbeddedArticle) (msg : String),
    scanKept item ks = .error msg → msg = "Vectors must have the same length" := by
  intro ks
  induction ks with
  | nil => intro msg h; exact absurd h (by simp [scanKept])
  | cons kept rest ih =>
    intro msg h
    simp only [scanKept] at h
    split at h
    · split at h
      · rename_i heq
        cases h
        exact areArticlesSimilar_error _ _ _ heq
      · split at h
        · exact absurd h (by simp)
        · exact absurd h (by simp)
      · split at h
        · rename_i heq
          cases h
          exact ih _ heq
        · exact absurd h (by simp)
    · split at h
      · rename_i heq
        cases h
        exact ih _ heq
      · exact absurd h (by simp)

theorem semanticFold_error :
    ∀ (items acc : List EmbeddedArticle) (msg : String),
    semanticFold acc items = .error msg → msg = "Vectors must have the same length" := by
  intro items
  induction items with
  | nil => intro acc msg h; exact absurd h (by simp [semanticFold])
  | cons item rest ih =>
    intro acc msg h
    simp only [semanticFold] at h
    split at h
    · rename_i heq
      cases h
      exact scanKept_error _ _ _ heq
    · exact ih _ _ h

theorem deduplicateArticles_error (env : DedupEnv) (articles : List InsertArticle)
    (msg : String) (h : deduplicateArticles env articles = .error msg) :
    msg = "Vectors must have the same length" := by
  rw [deduplicateArticles] at h
  split at h
  · exact absurd h (by simp)
  · split at h
    · exact absurd h (by simp)
    · split at h
      · rename_i heq
        cases h
        exact semanticFold_error _ _ _ heq
      · exact absurd h (by simp)

/-- The caller-contract error of `searchNews` is exactly the mismatched
vector length error of the similarity comparison. -/
theorem searchNews_error (env : SearchEnv) (store : StoreState)
    (params : SearchParams) (msg : String)
    (h : searchNews env store params = .error msg) :
    msg = "Vectors must have the same length" := by
  rw [searchNews] at h
  split at h
  · rename_i heq
    cases h
    exact deduplicateArticles_error _ _ _ heq
  · exact absurd h (by simp)

/-- The caller contract of the embedding oracle: every successful embedding of
a run has the model's dimension `n`; `[]` marks a failed request. -/
def EmbedOK (n : Nat) (x : EmbeddedArticle) : Prop :=
  x.embedding = [] ∨ x.embedding.length = n

theorem areArticlesSimilar_ok_of_len (e1 e2 : List ℚ) (h : e1.length = e2.length) :
    ∃ b, areArticlesSimilar e1 e2 = .ok b := by
  rw [areArticlesSimilar, if_neg (show ¬ (e1.length ≠ e2.length) from fun hh => hh h)]
  split
  · exact ⟨false, rfl⟩
  · exact ⟨_, rfl⟩

theorem scanKept_ok (n : Nat) (item : EmbeddedArticle) (hitem : EmbedOK n item) :
    ∀ ks : List EmbeddedArticle, (∀ x ∈ ks, EmbedOK n x) →
    ∃ b ks', scanKept item ks = .ok (b, ks') ∧ ∀ x ∈ ks', EmbedOK n x := by
  intro ks
  induction ks with
  | nil =>
    intro _
    exact ⟨false, [], rfl, fun x hx => absurd hx (List.not_mem_nil x)⟩
  | cons kept rest ih =>
    intro hks
    obtain ⟨b', rest', hrest, hrest'⟩ := ih (fun x hx => hks x (List.mem_cons_of_mem _ hx))
    by_cases hcond : item.embedding.length > 0 ∧ kept.embedding.length > 0
    · have hlen : item.embedding.length = kept.embedding.length := by
        rcases hitem with h1 | h1
        · rw [h1] at hcond; simp at hcond
        · rcases hks kept (List.mem_cons_self _ _) with h2 | h2
          · rw [h2] at hcond; simp at hcond
          · rw [h1, h2]
      obtain ⟨b, hb⟩ := areArticlesSimilar_ok_of_len _ _ hlen
      cases b
      · refine ⟨b', kept :: rest', ?_, ?_⟩
        · simp [scanKept, hcond, hb, hrest]
        · intro x hx
          rcases List.mem_cons.mp hx with h' | h'
          · exact h' ▸ hks kept (List.mem_cons_self _ _)
          · exact hrest' x h'
      · by_cases hgt : item.article.publishedAt > kept.article.publishedAt
        · refine ⟨true, item :: rest, ?_, ?_⟩
          · simp [scanKept, hcond, hb, hgt]
          · intro x hx
            rcases List.mem_cons.mp hx with h' | h'
            · exact h' ▸ hitem
            · exact hks x (List.mem_cons_of_mem _ h')
        · refine ⟨true, kept :: rest, ?_, ?_⟩
          · simp [scanKept, hcond, hb, hgt]
          · exact hks
    · refine ⟨b', kept :: rest', ?_, ?_⟩
      · simp [scanKept, hcond, hrest]
      · intro x hx
        rcases List.mem_cons.mp hx with h' | h'
        · exact h' ▸ hks kept (List.mem_cons_self _ _)
        · exact hrest' x h'

theorem semanticFold_ok (n : Nat) :
    ∀ (items acc : List EmbeddedArticle), (∀ x ∈ acc, EmbedOK n x) →
    (∀ x ∈ items, EmbedOK n x) → ∃ out, semanticFold acc items = .ok out := by
  intro items
  induction items with
  | nil => intro acc _ _; exact ⟨acc, rfl⟩
  | cons item rest ih =>
    intro acc hacc hitems
    obtain ⟨b, acc', heq, hacc'⟩ :=
      scanKept_ok n item (hitems item (List.mem_cons_self _ _)) acc hacc
    have hacc2 : ∀ x ∈ (if b then acc' else acc' ++ [item]), EmbedOK n x := by
      intro x hx
      by_cases hb : b = true
      · rw [hb, if_pos rfl] at hx
        exact hacc' x hx
      · rw [if_neg hb] at hx
        rcases List.mem_append.mp hx with h' | h'
        · exact hacc' x h'
        · rw [List.mem_singleton.mp h']
          exact hitems item (List.mem_cons_self _ _)
    obtain ⟨out, hout⟩ := ih _ hacc2 (fun x hx => hitems x (List.mem_cons_of_mem _ hx))
    refine ⟨out, ?_⟩
    simp only [semanticFold, heq]
    exact hout

theorem deduplicateArticles_ok (env : DedupEnv) (articles : List InsertArticle)
    (n : Nat) (hor : ∀ a e, env.oracle a = some e → e.length = n) :
    ∃ out, deduplicateArticles env articles = .ok out := by
  rw [deduplicateArticles]
  split
  · exact ⟨_, rfl⟩
  · split
    · exact ⟨_, rfl⟩
    · have hitems : ∀ x ∈ (deduplicateArticlesLexical articles).map
          (fun article => EmbeddedArticle.mk article ((env.oracle article).getD [])),
          EmbedOK n x := by
        intro x hx
        obtain ⟨a, _, hxa⟩ := List.mem_map.mp hx
        cases ho : env.oracle a with
        | none =>
          left
          rw [← hxa]
          simp [ho]
        | some e =>
          by_cases he : e = []
          · left
            rw [← hxa]
            simp [ho, he]
          · right
            rw [← hxa]
            simpa [ho] using hor a e ho
      obtain ⟨out, hout⟩ := semanticFold_ok n _ []
        (fun x hx => absurd hx (List.not_mem_nil x)) hitems
      rw [hout]
      exact ⟨_, rfl⟩

theorem searchNews_ok (env : SearchEnv) (store : StoreState) (params : SearchParams)
    (n : Nat) (hor : ∀ a e, env.dedup.oracle a = some e → e.length = n) :
    ∃ res, searchNews env store params = .ok res := by
  rw [searchNews]
  obtain ⟨out, hout⟩ := deduplicateArticles_ok env.dedup _ n hor
  rw [hout]
  exact ⟨_, rfl⟩

theorem persistLoop_no_fail (l : List InsertArticle) :
    ∀ (f : Nat → Bool) (s : StoreState) (j j' : Nat),
    (∀ i, j ≤ i → f i = false) →
    persistLoop f s j l = persistLoop (fun _ => false) s j' l := by
  induction l with
  | nil => intro f s j j' _; rfl
  | cons a rest ih =>
    intro f s j j' h
    have hj : f j = false := h j (le_refl j)
    simp only [persistLoop, hj, Bool.false_eq_true, if_false]
    cases hca : createArticle s a with
    | mk s' row? =>
      cases row? with
      | some row =>
        show ((persistLoop f s' (j + 1) rest).1, row :: (persistLoop f s' (j + 1) rest).2)
          = ((persistLoop (fun _ => false) s' (j' + 1) rest).1,
             row :: (persistLoop (fun _ => false) s' (j' + 1) rest).2)
        rw [ih f s' (j + 1) (j' + 1) (fun i hi => h i (by omega))]
      | none =>
        exact ih f s' (j + 1) (j' + 1) (fun i hi => h i (by omega))

theorem persistLoop_single_fail (l : List InsertArticle) :
    ∀ (s : StoreState) (j k : Nat),
    persistLoop (fun i => decide (i = j + k)) s j l
      = persistLoop (fun _ => false) s j (l.eraseIdx k) := by
  induction l with
  | nil => intro s j k; rfl
  | cons a rest ih =>
    intro s j k
    cases k with
    | zero =>
      have hj : decide (j = j + 0) = true := by simp
      simp only [persistLoop, hj, if_true, List.eraseIdx]
      exact persistLoop_no_fail rest _ s (j + 1) j
        (fun i hi => by simp only [decide_eq_false_iff_not]; omega)
    | succ k' =>
      have hj : decide (j = j + (k' + 1)) = false := by
        simp only [decide_eq_false_iff_not]
        omega
      rw [show j + (k' + 1) = (j + 1) + k' from by omega] at hj ⊢
      simp only [persistLoop, hj, Bool.false_eq_true, if_false, List.eraseIdx]
      cases hca : createArticle s a with
      | mk s' row? =>
        cases row? with
        | some row =>
          show ((persistLoop (fun i => decide (i = j + 1 + k')) s' (j + 1) rest).1,
              row :: (persistLoop (fun i => decide (i = j + 1 + k')) s' (j + 1) rest).2)
            = ((persistLoop (fun _ => false) s' (j + 1) (rest.eraseIdx k')).1,
               row :: (persistLoop (fun _ => false) s' (j + 1) (rest.eraseIdx k')).2)
          rw [ih s' (j + 1) k']
        | none => exact ih s' (j + 1) k'

/-- C7: `searchNews` never raises for partial failures — with a length
consistent oracle it returns for every pattern of adapter and persistence
failures; a failed adapter contributes an empty list; a persistence failure
for one article drops exactly that article; the only error it can propagate
is the mismatched-vector-length caller-contract violation; and an empty or
missing keyword is rejected by the route as a validation failure before the
search runs. -/
theorem searchnews_failure_isolation (env : SearchEnv) (store s : StoreState)
    (params : SearchParams) (n : Nat) (msg : String) (k : Nat)
    (l : List InsertArticle) (startDate endDate source : Option String) :
    ((∀ a e, env.dedup.oracle a = some e → e.length = n) →
      ∃ res, searchNews env store params = .ok res) ∧
    (searchNews env store params = .error msg →
      msg = "Vectors must have the same length") ∧
    (env.newsapiOutcome = .error msg → searchNewsAPI env = []) ∧
    (env.naverOutcome = .error msg → searchNaverNews env = []) ∧
    (env.bingOutcome = .error msg → searchBingNews env = []) ∧
    (persistLoop (fun i => decide (i = k)) s 0 l
      = persistLoop (fun _ => false) s 0 (l.eraseIdx k)) ∧
    (newsSearchRoute env store (some "") startDate endDate source
      = (.badRequest "Keyword is required", store)) ∧
    (newsSearchRoute env store none startDate endDate source
      = (.badRequest "Keyword is required", store)) := by
  refine ⟨?_, ?_, ?_, ?_, ?_, ?_, ?_, ?_⟩
  · exact fun hor => searchNews_ok env store params n hor
  · exact searchNews_error env store params msg
  · intro h
    rw [searchNewsAPI, h]
  · intro h
    rw [searchNaverNews, h]
  · intro h
    rw [searchBingNews, h]
  · have hfun : (fun i => decide (i = k)) = (fun i => decide (i = 0 + k)) := by
      funext i
      rw [Nat.zero_add]
    rw [hfun]
    exact persistLoop_single_fail l s 0 k
  · rfl
  · rfl

/-- Witness for C7: a clean environment searches successfully; an environment
whose oracle returns mismatched vector lengths propagates exactly the
length error; an erroring adapter contributes nothing; a one-call persistence
failure erases one article; the empty keyword is rejected. -/
theorem searchnews_failure_isolation_witness :
    (∃ res, searchNews ⟨.ok [], .ok [], .ok [], ⟨false, fun _ => none⟩, fun _ => false⟩
      initialStore ⟨"kw", none, none, some "all"⟩ = .ok res) ∧
    ("Vectors must have the same length" = "Vectors must have the same length") ∧
    searchNewsAPI ⟨.error "rate limited", .error "rate limited", .error "rate limited",
      ⟨false, fun _ => none⟩, fun _ => false⟩ = [] ∧
    searchNaverNews ⟨.error "rate limited", .error "rate limited", .error "rate limited",
      ⟨false, fun _ => none⟩, fun _ => false⟩ = [] ∧
    searchBingNews ⟨.error "rate limited", .error "rate limited", .error "rate limited",
      ⟨false, fun _ => none⟩, fun _ => false⟩ = [] ∧
    (persistLoop (fun i => decide (i = 0)) initialStore 0
        [⟨"T", none, "u", none, "bing", 0, none⟩]
      = persistLoop (fun _ => false) initialStore 0
          ([(⟨"T", none, "u", none, "bing", 0, none⟩ : InsertArticle)].eraseIdx 0)) ∧
    (newsSearchRoute ⟨.ok [], .ok [], .ok [], ⟨false, fun _ => none⟩, fun _ => false⟩
        initialStore (some "") none none none
      = (.badRequest "Keyword is required", initialStore)) := by
  have h1 := searchnews_failure_isolation
    ⟨.ok [], .ok [], .ok [], ⟨false, fun _ => none⟩, fun _ => false⟩
    initialStore initialStore ⟨"kw", none, none, some "all"⟩ 0 "" 0 [] none none none
  have h2 := searchnews_failure_isolation
    ⟨.ok [], .ok [⟨"Alpha", none, "u1", none, "naver", 0, none⟩,
                  ⟨"Beta", none, "u2", none, "naver", 0, none⟩], .ok [],
      ⟨true, fun a => if a.title = "Alpha" then some [1] else some [1, 2]⟩,
      fun _ => false⟩
    initialStore initialStore ⟨"kw", none, none, some "naver"⟩ 0
    "Vectors must have the same length" 0 [] none none none
  have h3 := searchnews_failure_isolation
    ⟨.error "rate limited", .error "rate limited", .error "rate limited",
      ⟨false, fun _ => none⟩, fun _ => false⟩
    initialStore initialStore ⟨"kw", none, none, some "all"⟩ 0 "rate limited" 0
    [] none none none
  have h4 := searchnews_failure_isolation
    ⟨.ok [], .ok [], .ok [], ⟨false, fun _ => none⟩, fun _ => false⟩
    initialStore initialStore ⟨"kw", none, none, some "all"⟩ 0 "" 0
    [⟨"T", none, "u", none, "bing", 0, none⟩] none none none
  exact ⟨h1.1 (fun a e h => Option.noConfusion h),
    h2.2.1 (by rfl),
    h3.2.2.1 rfl, h3.2.2.2.1 rfl, h3.2.2.2.2.1 rfl,
    h4.2.2.2.2.2.1,
    h1.2.2.2.2.2.2.1⟩

/-- C10: an input whose two fetched articles share one url but have distinct
phase-1 bucket keys makes `searchNews` return the same persisted row (same
url and id) twice, even though the store itself keeps a single row. -/
theorem searchnews_duplicate_url_rows :
    ∃ row : Article,
      searchNews
        ⟨.ok [], .ok [⟨"Alpha", none, "https://u", none, "naver", 0, some "general"⟩,
                      ⟨"Beta", none, "https://u", none, "naver", 0, some "general"⟩],
         .ok [], ⟨false, fun _ => none⟩, fun _ => false⟩
        initialStore ⟨"kw", none, none, some "all"⟩
        = .ok (⟨[row], 1⟩, [row, row]) ∧
      row.url = "https://u" ∧
      normalizeTitle "Alpha" ≠ normalizeTitle "Beta" := by
  exact ⟨⟨⟨"Alpha", none, "https://u", none, "naver", 0, some "general"⟩, 0⟩,
    rfl, rfl, by decide⟩

/-! ## Breaking-news monitor (notificationService) -/

/-- The external data of one scan of a subscription: the clock value read at
the start of the scan and the per-keyword `searchNews` outcomes. -/
structure ScanInput where
  now : Int
  results : List (Except String (List Article))

/-- The observable result of one scan: the updated in-memory watermark, the
watermark value the scan filtered against, and the new articles found (when
nonempty a notification carrying the first three of them is emitted). -/
structure ScanResult where
  newState : Option Int
  lastCheck : Int
  newArticles : List Article

/-- `checkBreakingNewsForSubscription` (notificationService): read the stored
watermark, defaulting to now − 5 minutes on the first scan; concatenate the
per-keyword search results, a failed keyword search being caught and
contributing nothing; keep the articles published strictly after the
watermark; then unconditionally overwrite the watermark with the scan's start
time. -/
def checkBreakingNewsForSubscription (st : Option Int) (inp : ScanInput) : ScanResult :=
  let lastCheck := match st with
    | some t => t
    | none => inp.now - 5 * 60 * 1000
  let articles := inp.results.foldl (fun acc r =>
    match r with
    | .ok results => acc ++ results
    | .error _ => acc) []
  ⟨some inp.now, lastCheck, articles.filter (fun a => a.publishedAt > lastCheck)⟩

/-- The watermark held in `lastCheckTimes` after each successive monitor tick
for one subscription. -/
def runMonitorStates : Option Int → List ScanInput → List (Option Int)
  | _, [] => []
  | st, inp :: rest =>
    (checkBreakingNewsForSubscription st inp).newState ::
      runMonitorStates (checkBreakingNewsForSubscription st inp).newState rest

/-- C6: every completed scan overwrites the watermark with the scan's start
time, whatever was found and whatever failed per keyword; the first scan
filters against the lazy default of now − 5 minutes; consequently the
watermark after each of N consecutive ticks is exactly that tick's clock
value, hence non-decreasing under a monotone clock and never above any time
at or after the ticks. -/
theorem watermark_monotone (st : Option Int) (inputs : List ScanInput)
    (inp : ScanInput) (t : Int) :
    ((checkBreakingNewsForSubscription st inp).newState = some inp.now) ∧
    ((checkBreakingNewsForSubscription none inp).lastCheck = inp.now - 5 * 60 * 1000) ∧
    (runMonitorStates st inputs = inputs.map (fun i => some i.now)) ∧
    (inputs.Pairwise (fun i j => i.now ≤ j.now) →
      (runMonitorStates st inputs).Pairwise
        (fun x y => ∀ a b, x = some a → y = some b → a ≤ b)) ∧
    ((∀ i ∈ inputs, i.now ≤ t) →
      ∀ w ∈ runMonitorStates st inputs, ∀ v, w = some v → v ≤ t) := by
  have hrun : ∀ (st : Option Int) (inputs : List ScanInput),
      runMonitorStates st inputs = inputs.map (fun i => some i.now) := by
    intro st inputs
    induction inputs generalizing st with
    | nil => rfl
    | cons i rest ih => simp [runMonitorStates, ih, checkBreakingNewsForSubscription]
  refine ⟨rfl, rfl, hrun st inputs, ?_, ?_⟩
  · intro hmono
    rw [hrun]
    refine List.Pairwise.map _ ?_ hmono
    intro i j hij a b ha hb
    rw [← Option.some_inj.mp ha, ← Option.some_inj.mp hb]
    exact hij
  · intro hb w hw v hv
    rw [hrun] at hw
    obtain ⟨i, hi, hwi⟩ := List.mem_map.mp hw
    rw [← hwi] at hv
    rw [← Option.some_inj.mp hv]
    exact hb i hi

/-- Witness for C6: two ticks, the first with a failing keyword search; the
watermark trajectory equals the tick clock values, is monotone and bounded. -/
theorem watermark_monotone_witness :
    runMonitorStates none [⟨10, [.error "adapter down"]⟩, ⟨20, [.ok []]⟩]
      = [some 10, some 20] ∧
    (checkBreakingNewsForSubscription none ⟨10, [.error "adapter down"]⟩).lastCheck
      = 10 - 5 * 60 * 1000 ∧
    (runMonitorStates none [⟨10, [.error "adapter down"]⟩, ⟨20, [.ok []]⟩]).Pairwise
      (fun x y => ∀ a b, x = some a → y = some b → a ≤ b) ∧
    (∀ w ∈ runMonitorStates none [⟨10, [.error "adapter down"]⟩, ⟨20, [.ok []]⟩],
      ∀ v, w = some v → v ≤ 30) := by
  have h := watermark_monotone none [⟨10, [.error "adapter down"]⟩, ⟨20, [.ok []]⟩]
    ⟨10, [.error "adapter down"]⟩ 30
  refine ⟨h.2.2.1, h.2.1, h.2.2.2.1 ?_, h.2.2.2.2 ?_⟩
  · refine List.Pairwise.cons ?_ (List.Pairwise.cons ?_ List.Pairwise.nil)
    · intro j hj
      rw [List.mem_singleton.mp hj]
      decide
    · intro j hj
      cases hj
  · intro i hi
    rcases List.mem_cons.mp hi with h' | h'
    · rw [h']; decide
    · rw [List.mem_singleton.mp h']; decide

/-! ## Stored-article search and trending topics -/

/-- Query parameters of `DatabaseStorage.searchArticles`; dates are epoch
milliseconds. -/
structure SearchArticlesParams where
  keyword : Option String
  startDate : Option Int
  endDate : Option Int
  source : Option String

/-- Character-list matching from the front. -/
def leadsWith : List Char → List Char → Bool
  | [], _ => true
  | _ :: _, [] => false
  | x :: xs, y :: ys => x = y && leadsWith xs ys

/-- Contiguous-segment test for character lists. -/
def hasSegment : List Char → List Char → Bool
  | needle, [] => leadsWith needle []
  | needle, c :: rest => leadsWith needle (c :: rest) || hasSegment needle rest

/-- Case-insensitive substring test, modelling SQL `ILIKE '%kw%'`. -/
def containsCI (hay needle : String) : Bool :=
  hasSegment (needle.data.map Char.toLower) (hay.data.map Char.toLower)

/-- The WHERE clause of `searchArticles`: keyword against title or description
(a SQL-null description never matches), `publishedAt` bounds inclusive on
both sides, and the source filter; in the JavaScript guards
(`if (params.keyword)`, `params.source && params.source !== "all"`) an absent
or empty string disables the condition. -/
def matchesSearch (p : SearchArticlesParams) (a : Article) : Bool :=
  (match p.keyword with
   | none => true
   | some k =>
     if k = "" then true
     else containsCI a.title k ||
       (match a.description with
        | some d => containsCI d k
        | none => false)) &&
  (match p.startDate with
   | none => true
   | some t => decide (t ≤ a.publishedAt)) &&
  (match p.endDate with
   | none => true
   | some t => decide (a.publishedAt ≤ t)) &&
  (match p.source with
   | none => true
   | some src =>
     if src = "" then true
     else if src = "all" then true
     else decide (a.source = src))

/-- `DatabaseStorage.searchArticles`: filter the table, order by `publishedAt`
descending (ties left in insertion order), and truncate to 100 rows
(`.limit(100)`). -/
def searchArticles (s : StoreState) (p : SearchArticlesParams) : List Article :=
  (jsSortBy (fun a b => decide (b.publishedAt ≤ a.publishedAt))
    (s.rows.filter (matchesSearch p))).take 100

/-- A `TrendData` value (shared/schema.ts); `changePercent` is an exact
rational standing for the source's float. -/
structure TrendData where
  category : String
  trendDirection : String
  articleCount : Nat
  changePercent : ℚ
deriving DecidableEq, Repr

/-- The category display renaming in `getTrendingTopics`. -/
def displayCategory (c : String) : String :=
  if c = "technology" then "기술"
  else if c = "business" then "경제"
  else if c = "general" then "일반"
  else c

/-- `Math.round(x * 10) / 10`, with `Math.round` as floor of the value plus
one half. -/
def jsRound1 (q : ℚ) : ℚ := (⌊q * 10 + 1 / 2⌋ : ℤ) / 10

/-- One synthesized trend entry: `changePercent = rand * 30 - 10` from this
entry's random draw, direction by the ±2 thresholds on the raw value, count
from the aggregation, and the rounded percentage. -/
def mkTrend (rand : Nat → ℚ) (idx : Nat) (category : String) (count : Nat) : TrendData :=
  ⟨displayCategory category,
   if rand idx * 30 - 10 > 2 then "up"
   else if rand idx * 30 - 10 < -2 then "down"
   else "stable",
   count,
   jsRound1 (rand idx * 30 - 10)⟩

/-- The fixed fallback trend set returned when the aggregation is empty. -/
def fallbackTrends : List TrendData :=
  [⟨"기술", "up", 124, 152 / 10⟩,
   ⟨"경제", "up", 98, 85 / 10⟩,
   ⟨"일반", "stable", 65, 5 / 10⟩]

/-- The category counting loop of `getTrendingTopics`: rows whose category is
truthy (non-null and non-empty, the JavaScript `if (article.category)` test)
are counted in an insertion-ordered map. -/
def countStep (m : List (String × Nat)) (a : Article) : List (String × Nat) :=
  match a.category with
  | none => m
  | some c => if c = "" then m else mapSet c ((mapFind? c m).getD 0 + 1) m

/-- The aggregation of `getTrendingTopics` (newsService) applied to the rows
returned by the store query: count by truthy category, synthesize one trend
entry per category from the injected random draws (`rand` models the
successive `Math.random()` calls), return the fixed fallback sample when
nothing was counted, and otherwise sort by `articleCount` descending and keep
the top 5. -/
def trendsPipeline (rand : Nat → ℚ) (articles : List Article) : List TrendData :=
  let trends := (articles.foldl countStep []).enum.map
    (fun p => mkTrend rand p.1 p.2.1 p.2.2)
  if trends.length = 0 then fallbackTrends
  else (jsSortBy (fun a b => decide (b.articleCount ≤ a.articleCount)) trends).take 5

/-- The store query of `getTrendingTopics`: everything published in the last
seven days (`{ startDate: sevenDaysAgo }`). -/
def getTrendingTopics (now : Int) (rand : Nat → ℚ) (s : StoreState) : List TrendData :=
  trendsPipeline rand
    (searchArticles s ⟨none, some (now - 7 * 24 * 60 * 60 * 1000), none, none⟩)

theorem countFold_find_some (c : String) (hc : c ≠ "") (l : List Article) :
    ∀ (m : List (String × Nat)) (n : Nat), mapFind? c m = some n →
    mapFind? c (l.foldl countStep m)
      = some (n + (l.filter (fun a => a.category = some c)).length) := by
  induction l with
  | nil => intro m n h; simpa using h
  | cons a rest ih =>
    intro m n h
    rw [List.foldl_cons]
    cases hcat : a.category with
    | none =>
      have hstep : countStep m a = m := by simp only [countStep, hcat]
      have hfil : (a :: rest).filter (fun x => x.category = some c)
          = rest.filter (fun x => x.category = some c) := by
        simp [List.filter_cons, hcat]
      rw [hstep, hfil]
      exact ih m n h
    | some c' =>
      by_cases hce : c' = ""
      · have hstep : countStep m a = m := by
          rw [countStep, hcat]
          exact if_pos hce
        have hfil : (a :: rest).filter (fun x => x.category = some c)
            = rest.filter (fun x => x.category = some c) := by
          have : c' ≠ c := fun hcc => hc (hcc ▸ hce)
          simp [List.filter_cons, hcat, this]
        rw [hstep, hfil]
        exact ih m n h
      · by_cases hcc : c' = c
        · subst hcc
          have hstep : countStep m a = mapSet c' (n + 1) m := by
            simp only [countStep, hcat, if_neg hce, h]
            rfl
          have hfil : (a :: rest).filter (fun x => x.category = some c')
              = a :: rest.filter (fun x => x.category = some c') := by
            simp [List.filter_cons, hcat]
          rw [hstep, hfil, List.length_cons,
            ih (mapSet c' (n + 1) m) (n + 1) (mapFind?_mapSet_self c' (n + 1) m)]
          exact congrArg some (by omega)
        · have hstep : countStep m a
              = mapSet c' ((mapFind? c' m).getD 0 + 1) m := by
            simp only [countStep, hcat, if_neg hce]
          have hfil : (a :: rest).filter (fun x => x.category = some c)
              = rest.filter (fun x => x.category = some c) := by
            simp [List.filter_cons, hcat, hcc]
          rw [hstep, hfil]
          exact ih _ n (by rw [mapFind?_mapSet_ne c' c _ m (fun he => hcc he), h])

theorem countFold_find_none (c : String) (hc : c ≠ "") (l : List Article) :
    ∀ m : List (String × Nat), mapFind? c m = none →
    mapFind? c (l.foldl countStep m)
      = if (l.filter (fun a => a.category = some c)).length = 0 then none
        else some ((l.filter (fun a => a.category = some c)).length) := by
  induction l with
  | nil =>
    intro m h
    simpa using h
  | cons a rest ih =>
    intro m h
    rw [List.foldl_cons]
    cases hcat : a.category with
    | none =>
      have hstep : countStep m a = m := by simp only [countStep, hcat]
      have hfil : (a :: rest).filter (fun x => x.category = some c)
          = rest.filter (fun x => x.category = some c) := by
        simp [List.filter_cons, hcat]
      rw [hstep, hfil]
      exact ih m h
    | some c' =>
      by_cases hce : c' = ""
      · have hstep : countStep m a = m := by
          rw [countStep, hcat]
          exact if_pos hce
        have hfil : (a :: rest).filter (fun x => x.category = some c)
            = rest.filter (fun x => x.category = some c) := by
          have : c' ≠ c := fun hcc => hc (hcc ▸ hce)
          simp [List.filter_cons, hcat, this]
        rw [hstep, hfil]
        exact ih m h
      · by_cases hcc : c' = c
        · subst hcc
          have hstep : countStep m a = mapSet c' 1 m := by
            simp only [countStep, hcat, if_neg hce, h]
            rfl
          have hfil : (a :: rest).filter (fun x => x.category = some c')
              = a :: rest.filter (fun x => x.category = some c') := by
            simp [List.filter_cons, hcat]
          rw [hstep, hfil, List.length_cons,
            countFold_find_some c' hc rest (mapSet c' 1 m) 1 (mapFind?_mapSet_self c' 1 m)]
          rw [if_neg (by omega)]
          exact congrArg some (by omega)
        · have hstep : countStep m a
              = mapSet c' ((mapFind? c' m).getD 0 + 1) m := by
            simp only [countStep, hcat, if_neg hce]
          have hfil : (a :: rest).filter (fun x => x.category = some c)
              = rest.filter (fun x => x.category = some c) := by
            simp [List.filter_cons, hcat, hcc]
          rw [hstep, hfil]
          exact ih _ (by rw [mapFind?_mapSet_ne c' c _ m (fun he => hcc he), h])

theorem nodup_keys_mapSet {α : Type} (k : String) (v : α) (m : List (String × α))
    (h : (m.map Prod.fst).Nodup) : ((mapSet k v m).map Prod.fst).Nodup := by
  cases hf : mapFind? k m with
  | some x =>
    rw [keys_mapSet_mem k v m (by rw [hf]; exact fun hh => Option.noConfusion hh)]
    exact h
  | none =>
    rw [mapSet_of_not_mem k v m hf, List.map_append]
    refine List.Nodup.append h (List.nodup_singleton _) ?_
    intro x hx hx'
    have hxk : x = k := by simpa using hx'
    exact (mapFind?_eq_none_iff k m).mp hf (hxk ▸ hx)

theorem countFold_nodup_keys (l : List Article) :
    ∀ m : List (String × Nat), (m.map Prod.fst).Nodup →
    ((l.foldl countStep m).map Prod.fst).Nodup := by
  induction l with
  | nil => intro m h; exact h
  | cons a rest ih =>
    intro m h
    rw [List.foldl_cons]
    refine ih _ ?_
    cases hcat : a.category with
    | none =>
      simp only [countStep, hcat]
      exact h
    | some c =>
      by_cases hce : c = ""
      · simp only [countStep, hcat, if_pos hce]
        exact h
      · simp only [countStep, hcat, if_neg hce]
        exact nodup_keys_mapSet c _ m h

theorem countFold_keys_ne (l : List Article) :
    ∀ m : List (String × Nat), (∀ p ∈ m, p.1 ≠ "") →
    ∀ p ∈ l.foldl countStep m, p.1 ≠ "" := by
  induction l with
  | nil => intro m h p hp; exact h p hp
  | cons a rest ih =>
    intro m h
    rw [List.foldl_cons]
    refine ih _ ?_
    intro p hp
    cases hcat : a.category with
    | none =>
      simp only [countStep, hcat] at hp
      exact h p hp
    | some c =>
      by_cases hce : c = ""
      · simp only [countStep, hcat, if_pos hce] at hp
        exact h p hp
      · simp only [countStep, hcat, if_neg hce] at hp
        rcases mem_mapSet _ _ _ _ hp with h' | h'
        · rw [h']; exact hce
        · exact h p h'

theorem countFold_empty (l : List Article) :
    (∀ a ∈ l, ∀ c, a.category = some c → c = "") →
    ∀ m : List (String × Nat), l.foldl countStep m = m := by
  induction l with
  | nil => intro _ m; rfl
  | cons a rest ih =>
    intro h m
    rw [List.foldl_cons]
    have hstep : countStep m a = m := by
      cases hcat : a.category with
      | none => simp only [countStep, hcat]
      | some c =>
        simp only [countStep, hcat]
        exact if_pos (h a (List.mem_cons_self _ _) c hcat)
    rw [hstep]
    exact ih (fun a ha => h a (List.mem_cons_of_mem _ ha)) m

theorem trendsPipeline_spec (rand : Nat → ℚ) (arts : List Article) :
    trendsPipeline rand arts ≠ [] ∧
    (trendsPipeline rand arts).length ≤ 5 ∧
    (trendsPipeline rand arts).Pairwise (fun a b => b.articleCount ≤ a.articleCount) ∧
    ((∀ a ∈ arts, ∀ c, a.category = some c → c = "") →
      trendsPipeline rand arts = fallbackTrends) ∧
    ((∃ a ∈ arts, ∃ c, a.category = some c ∧ c ≠ "") →
      ∀ t ∈ trendsPipeline rand arts, ∃ c, c ≠ "" ∧ t.category = displayCategory c ∧
        t.articleCount = (arts.filter (fun a => a.category = some c)).length) := by
  have hle_trans : ∀ a b c : TrendData,
      decide (b.articleCount ≤ a.articleCount) = true →
      decide (c.articleCount ≤ b.articleCount) = true →
      decide (c.articleCount ≤ a.articleCount) = true := by
    intro a b c h1 h2
    simp only [decide_eq_true_eq] at h1 h2 ⊢
    omega
  have hle_tot : ∀ a b : TrendData,
      decide (b.articleCount ≤ a.articleCount) = true ∨
      decide (a.articleCount ≤ b.articleCount) = true := by
    intro a b
    simp only [decide_eq_true_eq]
    omega
  simp only [trendsPipeline]
  by_cases hlen : (((arts.foldl countStep []).enum.map
      (fun p => mkTrend rand p.1 p.2.1 p.2.2)).length = 0)
  · rw [if_pos hlen]
    refine ⟨by decide, by decide, by decide, fun _ => rfl, ?_⟩
    rintro ⟨a, ha, c, hc, hcne⟩ t ht
    exfalso
    have hmem : a ∈ arts.filter (fun a => a.category = some c) :=
      List.mem_filter.mpr ⟨ha, by simp [hc]⟩
    have hflen : (arts.filter (fun a => a.category = some c)).length ≠ 0 := by
      intro h0
      rw [List.length_eq_zero] at h0
      rw [h0] at hmem
      cases hmem
    have hfind := countFold_find_none c hcne arts [] rfl
    rw [if_neg hflen] at hfind
    have hcm : arts.foldl countStep [] ≠ [] := by
      intro h0
      rw [h0] at hfind
      exact Option.noConfusion hfind
    rw [List.length_map, List.enum_length, List.length_eq_zero] at hlen
    exact hcm hlen
  · rw [if_neg hlen]
    have hsorted := sorted_jsSortBy
      (fun a b => decide (b.articleCount ≤ a.articleCount)) hle_trans hle_tot
      ((arts.foldl countStep []).enum.map (fun p => mkTrend rand p.1 p.2.1 p.2.2))
    have hslen := (jsSortBy_perm
      (fun a b => decide (b.articleCount ≤ a.articleCount))
      ((arts.foldl countStep []).enum.map
        (fun p => mkTrend rand p.1 p.2.1 p.2.2))).length_eq
    refine ⟨?_, ?_, ?_, ?_, ?_⟩
    · apply List.ne_nil_of_length_pos
      rw [List.length_take, hslen]
      omega
    · exact List.length_take_le 5 _
    · exact ((hsorted.imp (fun h => by simpa using h)).sublist (List.take_sublist 5 _))
    · intro hall
      exact absurd (by rw [countFold_empty arts hall]; rfl) hlen
    · intro _ t ht
      have ht1 : t ∈ jsSortBy (fun a b => decide (b.articleCount ≤ a.articleCount))
          ((arts.foldl countStep []).enum.map
            (fun p => mkTrend rand p.1 p.2.1 p.2.2)) :=
        (List.take_sublist 5 _).subset ht
      have ht2 : t ∈ (arts.foldl countStep []).enum.map
          (fun p => mkTrend rand p.1 p.2.1 p.2.2) :=
        (jsSortBy_perm _ _).mem_iff.mp ht1
      obtain ⟨p, hp, hpt⟩ := List.mem_map.mp ht2
      have hp2 : p.2 ∈ arts.foldl countStep [] := by
        have hm : p.2 ∈ (arts.foldl countStep []).enum.map Prod.snd :=
          List.mem_map.mpr ⟨p, hp, rfl⟩
        rwa [List.enum_map_snd] at hm
      have hkey : p.2.1 ≠ "" :=
        countFold_keys_ne arts [] (fun q hq => absurd hq (List.not_mem_nil q)) p.2 hp2
      have hnodup := countFold_nodup_keys arts [] List.nodup_nil
      have hfind : mapFind? p.2.1 (arts.foldl countStep []) = some p.2.2 :=
        mapFind?_of_mem_nodup _ p.2 hnodup hp2
      have hcount := countFold_find_none p.2.1 hkey arts [] rfl
      rw [hfind] at hcount
      by_cases h0 : (arts.filter (fun a => a.category = some p.2.1)).length = 0
      · rw [if_pos h0] at hcount
        exact absurd hcount (by simp)
      · rw [if_neg h0] at hcount
        refine ⟨p.2.1, hkey, ?_, ?_⟩
        · rw [← hpt]
          rfl
        · rw [← hpt]
          show p.2.2 = _
          exact Option.some.inj hcount

/-- C9 (amended): `getTrendingTopics` returns at most 5 trend signals, sorted
by `articleCount` descending, counting the rows returned by the store query —
the at-most-100 most recent persisted articles with `publishedAt` at or after
now − 7 days, with no upper time bound — grouped by truthy (non-null,
non-empty) category; whenever that query yields no row with a truthy category
it returns the fixed fallback trend set, never an empty list. -/
theorem trending_topics_spec (now : Int) (rand : Nat → ℚ) (s : StoreState) :
    getTrendingTopics now rand s ≠ [] ∧
    (getTrendingTopics now rand s).length ≤ 5 ∧
    (getTrendingTopics now rand s).Pairwise
      (fun a b => b.articleCount ≤ a.articleCount) ∧
    ((∀ a ∈ searchArticles s ⟨none, some (now - 7 * 24 * 60 * 60 * 1000), none, none⟩,
        ∀ c, a.category = some c → c = "") →
      getTrendingTopics now rand s = fallbackTrends) ∧
    ((∃ a ∈ searchArticles s ⟨none, some (now - 7 * 24 * 60 * 60 * 1000), none, none⟩,
        ∃ c, a.category = some c ∧ c ≠ "") →
      ∀ t ∈ getTrendingTopics now rand s, ∃ c, c ≠ "" ∧
        t.category = displayCategory c ∧
        t.articleCount = ((searchArticles s
          ⟨none, some (now - 7 * 24 * 60 * 60 * 1000), none, none⟩).filter
          (fun a => a.category = some c)).length) :=
  trendsPipeline_spec rand
    (searchArticles s ⟨none, some (now - 7 * 24 * 60 * 60 * 1000), none, none⟩)

/-- A store whose single in-window row has the empty-string category. -/
def storeEmptyCategory : StoreState :=
  ⟨[⟨⟨"t", none, "u", none, "naver", 0, some ""⟩, 0⟩], 1⟩

/-- A store holding 101 in-window rows of category `technology`. -/
def store101 : StoreState :=
  ⟨(List.range 101).map
    (fun i => ⟨⟨"t", none, "u", none, "naver", 0, some "technology"⟩, i⟩), 101⟩

/-- A store whose single row is dated ten days after `now = 0`. -/
def storeFuture : StoreState :=
  ⟨[⟨⟨"t", none, "u", none, "naver", 864000000, some "technology"⟩, 0⟩], 1⟩

set_option maxRecDepth 8000 in
/-- Counterexample to C9 as stated: (1) a stored in-window row whose category
is the empty string is not counted — the code returns the fixed fallback set
even though the store has a matching row with a non-null category; (2) with
101 matching rows of one category the reported count is 100, not the number
of persisted in-window articles, because the store query truncates at 100;
(3) a row published in the future (outside any trailing 7-day window) is
counted as if it were in the window, because the query has no upper bound. -/
theorem trending_topics_counterexample :
    (getTrendingTopics 0 (fun _ => 0) storeEmptyCategory = fallbackTrends ∧
      (searchArticles storeEmptyCategory
        ⟨none, some (0 - 7 * 24 * 60 * 60 * 1000), none, none⟩).length = 1) ∧
    ((getTrendingTopics 0 (fun _ => 0) store101).map
        (fun t => (t.category, t.articleCount)) = [("기술", 100)] ∧
      (store101.rows.filter
        (fun a => decide (0 - 7 * 24 * 60 * 60 * 1000 ≤ a.publishedAt) &&
          decide (a.category = some "technology"))).length = 101) ∧
    ((getTrendingTopics 0 (fun _ => 0) storeFuture).map
        (fun t => (t.category, t.articleCount)) = [("기술", 1)] ∧
      storeFuture.rows.filter (fun a => decide (a.publishedAt ≤ 0)) = []) := by
  refine ⟨⟨?_, ?_⟩, ⟨?_, ?_⟩, ⟨?_, ?_⟩⟩
  · rfl
  · decide
  · decide
  · decide
  · decide
  · decide

/-- Witness for C9 (amended): the fallback case at a store whose only row has
an empty category, and the counting case at a store with one truthy-category
row. -/
theorem trending_topics_spec_witness :
    getTrendingTopics 0 (fun _ => 0) storeEmptyCategory = fallbackTrends ∧
    (∀ t ∈ getTrendingTopics 0 (fun _ => 0) storeFuture, ∃ c, c ≠ "" ∧
      t.category = displayCategory c ∧
      t.articleCount = ((searchArticles storeFuture
        ⟨none, some (0 - 7 * 24 * 60 * 60 * 1000), none, none⟩).filter
        (fun a => a.category = some c)).length) :=
  ⟨(trending_topics_spec 0 (fun _ => 0) storeEmptyCategory).2.2.2.1 (by decide),
   (trending_topics_spec 0 (fun _ => 0) storeFuture).2.2.2.2 (by decide)⟩
